import Mathlib

/-!
Circular log store of `log/syslog.c`.

A shallow embedding of the log-record store: the region is a range of a flat,
byte-addressed memory, the globals `log`, `log_end`, `oldest`, `newest`,
`log_size` and `current_id` are the fields of `LogState`, pointers are
addresses (`0` is `NULL`), and every loop of the source takes a fuel argument
(`none` means the fuel ran out before the loop left).
-/

namespace Syslog

/-! ## Memory -/

/-- Flat byte-addressed memory: address to byte value. -/
abbrev Mem := Nat → Nat

/-- Read of a 32-bit little-endian word (an `int` or `unsigned int` field). -/
def rd32 (m : Mem) (a : Nat) : Nat :=
  m a + 256 * m (a + 1) + 65536 * m (a + 2) + 16777216 * m (a + 3)

/-- Store of a 32-bit little-endian word; the value is truncated to 32 bits. -/
def wr32 (m : Mem) (a v : Nat) : Mem := fun x =>
  if x = a then v % 256
  else if x = a + 1 then v / 256 % 256
  else if x = a + 2 then v / 65536 % 256
  else if x = a + 3 then v / 16777216 % 256
  else m x

/-- Read of a 64-bit little-endian word (`tv_sec`, `tv_nsec`). -/
def rd64 (m : Mem) (a : Nat) : Nat :=
  rd32 m a + 4294967296 * rd32 m (a + 4)

/-- Store of a 64-bit little-endian word. -/
def wr64 (m : Mem) (a v : Nat) : Mem :=
  wr32 (wr32 m a (v % 4294967296)) (a + 4) (v / 4294967296)

/-- The `n` bytes at `a`. -/
def rdBytes (m : Mem) (a n : Nat) : List Nat :=
  (List.range n).map fun i => m (a + i)

/-- Store of the bytes `bs` at `a`. -/
def wrBytes (m : Mem) (a : Nat) (bs : List Nat) : Mem := fun x =>
  if a ≤ x ∧ x < a + bs.length then bs.getD (x - a) 0 else m x

/-- The C string held by a byte list: the bytes before the first NUL. -/
def cstr (bs : List Nat) : List Nat := bs.takeWhile fun c => c != 0

/-- The call `strcpy(dst, src)`: the bytes of the string and its terminating NUL. -/
def strcpy (m : Mem) (dst : Nat) (src : List Nat) : Mem :=
  wrBytes m dst (cstr src ++ [0])

/-- The call `memcpy(dst, src, n)` on blocks that do not overlap. -/
def memcpy (m : Mem) (dst src n : Nat) : Mem := fun x =>
  if dst ≤ x ∧ x < dst + n then m (src + (x - dst)) else m x

/-- The call `calloc(1, size)` returning `base`: the block is zero-filled. -/
def calloc (m : Mem) (base size : Nat) : Mem := fun x =>
  if base ≤ x ∧ x < base + size then 0 else m x

/-! ## `struct log_head` -/

/-- Modelled from the spec: `sizeof(struct log_head)`; the declaration of
`struct log_head` is in `syslog.h`, which is not among the sources. The record
header holds `size`, `id`, `priority`, `source` (four 32-bit fields) and a
`struct timespec` of two 64-bit fields, followed by the flexible `data`. -/
def HDR : Nat := 32

/-- Modelled from the spec: offset of the field `size` of `struct log_head`. -/
def OFF_SIZE : Nat := 0
/-- Modelled from the spec: offset of the field `id` of `struct log_head`. -/
def OFF_ID : Nat := 4
/-- Modelled from the spec: offset of the field `priority` of `struct log_head`. -/
def OFF_PRIORITY : Nat := 8
/-- Modelled from the spec: offset of the field `source` of `struct log_head`. -/
def OFF_SOURCE : Nat := 12
/-- Modelled from the spec: offset of the field `ts` of `struct log_head`. -/
def OFF_TS : Nat := 16

/-- Modelled from the spec: `SOURCE_KLOG` of `syslog.h` (not among the sources). -/
def SOURCE_KLOG : Nat := 0
/-- Modelled from the spec: `SOURCE_SYSLOG` of `syslog.h` (not among the sources). -/
def SOURCE_SYSLOG : Nat := 1

/-- The constant `LOG_FACMASK` of the system header `<syslog.h>`. -/
def LOG_FACMASK : Nat := 0x03f8
/-- The constant `LOG_LOCAL7` of the system header `<syslog.h>`: facility 23, shifted by 3. -/
def LOG_LOCAL7 : Nat := 184

/-- Line 38: `#define LOG_DEFAULT_SIZE (16 * 1024)`. -/
def LOG_DEFAULT_SIZE : Nat := 16 * 1024
/-- Line 40: `#define SYSLOG_PADDING 16`. -/
def SYSLOG_PADDING : Nat := 16

/-- Line 44, `#define PAD(x) (x % 4) ? (((x) - (x % 4)) + 4) : (x)`, applied to a
single operand. -/
def PAD (x : Nat) : Nat := if x % 4 ≠ 0 then ((x) - (x % 4)) + 4 else x

/-- The same macro applied to the two-operand argument `a + b`, as
`log_buffer_init` does with `sizeof(struct log_head) + l->size`: the macro body
uses `x` unparenthesised, so `x % 4` expands to `a + b % 4`, which parses as
`a + (b % 4)`. -/
def PAD_sum (a b : Nat) : Nat :=
  if (a + b % 4) ≠ 0 then ((a + b) - (a + b % 4)) + 4 else (a + b)

/-! ## The store -/

/-- The file-scope variables of `syslog.c` that make up the store, with the
memory they point into. -/
structure LogState where
  mem : Mem
  log : Nat
  log_end : Nat
  oldest : Nat
  newest : Nat
  log_size : Nat
  current_id : Nat

/-- The state at program start: the static initialisers. -/
def boot (m : Mem) : LogState :=
  { mem := m, log := 0, log_end := 0, oldest := 0, newest := 0,
    log_size := LOG_DEFAULT_SIZE, current_id := 0 }

/-- The state `log_buffer_init(size)` leaves at program start, the block being
at `base`: an empty, zero-filled region. -/
def fresh (m : Mem) (base size : Nat) : LogState :=
  { mem := calloc m base size, log := base, log_end := base + size, oldest := base,
    newest := base, log_size := size, current_id := 0 }

/-- The conversion of a 32-bit field to `int` (two's complement), as in the
calls `log_next(h, h->size)`: a field of `2 ^ 31` or more is a negative `size`. -/
def to_int (v : Nat) : Int :=
  if v % 4294967296 < 2147483648 then ((v % 4294967296 : Nat) : Int)
  else ((v % 4294967296 : Nat) : Int) - 4294967296

/-- The macro `PAD` of line 44 on an `int` operand, as in `log_next`: `%`
truncates towards zero, so the remainder of a negative operand is not positive
(`PAD(-32)` is `-32`, `PAD(-30)` is `-24`). The sum is the one of the integers; it
leaves the range of `int` only for an operand above `2 ^ 31 - 4`. -/
def PAD_int (x : Int) : Int :=
  if Int.tmod x 4 ≠ 0 then ((x) - (Int.tmod x 4)) + 4 else x

/-- The function `log_next(h, size)`, `size` being an `int`:
`n = &h->data[PAD(size)]`, then `(n >= log_end) ? log : n`. With a negative
`size` the pointer does not advance; a pointer that would lie below address
zero has wrapped to the top of the address space, which is not below
`log_end`. -/
def log_next (s : LogState) (h : Nat) (size : Int) : Nat :=
  let n : Int := (h : Int) + (HDR : Int) + PAD_int size
  if n < 0 ∨ n ≥ (s.log_end : Int) then s.log else n.toNat

/-- The loop of `log_list`: `while (h != newest) { ... }`, `return NULL`. -/
def log_list_loop : Nat → LogState → Nat → Nat → Option Nat
  | 0, _, _, _ => none
  | fuel + 1, s, min, h =>
    if h ≠ s.newest then
      let h1 := log_next s h (to_int (rd32 s.mem (h + OFF_SIZE)))
      let h2 := if rd32 s.mem (h1 + OFF_SIZE) = 0 ∧ h1 > s.newest then s.log else h1
      if rd32 s.mem (h2 + OFF_ID) ≥ min ∧ h2 ≠ s.newest then some h2
      else log_list_loop fuel s min h2
    else some 0

/-- The `unsigned int min` of `log_list`. -/
def log_list_min (s : LogState) (count : Int) : Nat :=
  if count ≠ 0 then
    (if count < (s.current_id : Int) then (((s.current_id : Int) - count) % 4294967296).toNat
     else 0)
  else 0

/-- The function `log_list(count, h)`: the result is the returned pointer, `0` for `NULL`. -/
def log_list (fuel : Nat) (s : LogState) (count : Int) (h : Nat) : Option Nat :=
  let min := log_list_min s count
  if h = 0 ∧ rd32 s.mem (s.oldest + OFF_ID) ≥ min then some s.oldest
  else
    let h := if h = 0 then s.oldest else h
    log_list_loop fuel s min h

/-! ## `log_add` -/

/-- The function `isspace` in the C locale. -/
def isspace (c : Nat) : Bool :=
  c == 32 || c == 9 || c == 10 || c == 11 || c == 12 || c == 13

/-- The function `isdigit`: the class `[0-9]` of the two patterns. -/
def isdigit (c : Nat) : Bool := 48 ≤ c && c ≤ 57

/-- Lines 161-164: every line feed before the terminating NUL becomes a space.
`none` when the buffer holds no NUL (the loop would leave the buffer). -/
def replace_newlines : List Nat → Option (List Nat)
  | [] => none
  | c :: cs =>
    if c = 0 then some (c :: cs)
    else (replace_newlines cs).map fun r => (if c = 10 then 32 else c) :: r

/-- Lines 166-170: `c = buf + size - 2; while (isspace( *c)) { size--; c--; }`.
The result is the final `size`; `none` when `c` leaves the buffer. -/
def trim_size (buf : List Nat) : Nat → Option Nat
  | 0 => none
  | 1 => none
  | n + 2 =>
    match buf.get? n with
    | none => none
    | some c => if isspace c then trim_size buf (n + 1) else some (n + 2)

/-- The function `atoi` on a string that starts with a digit or with `>`, as
the pattern leaves it: `(int) strtol(s, NULL, 10)`, the decimal value of the
leading digits, at most `LONG_MAX`, converted to `int`. The `int` is held as
its 32-bit two's complement pattern (`-1` is `4294967295`), which is what `&`
tests at line 191 and what the store of line 211 writes. -/
def atoi (bs : List Nat) : Nat :=
  min ((bs.takeWhile isdigit).foldl (fun acc c => 10 * acc + (c - 48)) 0) (2 ^ 63 - 1) % 2 ^ 32

/-- The call `regexec(&pat_prio, buf, ...)` for `"^<([0-9]*)>(.*)"`: on a match the
result is `matches[2].rm_so` (`matches[1].rm_so` is `1`). -/
def match_prio (buf : List Nat) : Option Nat :=
  match cstr buf with
  | [] => none
  | c :: cs =>
    if c = 60 then
      let ds := cs.takeWhile isdigit
      match cs.drop ds.length with
      | [] => none
      | d :: _ => if d = 62 then some (ds.length + 2) else none
    else none

/-- Lines 161-186 of `log_add`: the result is `(priority, buf, size)` as they
stand at line 188. `none` when an access leaves the buffer. -/
def log_add_parse (buf : List Nat) (size source : Nat) : Option (Nat × List Nat × Nat) :=
  match replace_newlines buf with
  | none => none
  | some b1 =>
    match trim_size b1 size with
    | none => none
    | some size1 =>
      let b2 := b1.set (size1 - 1) 0
      let (priority, b3, size3) :=
        match match_prio b2 with
        | some so => (atoi (b2.drop 1), b2.drop so, size1 - so)
        | none => (0, b2, size1)
      if source = SOURCE_SYSLOG ∧ size3 > SYSLOG_PADDING ∧ b3.getD (SYSLOG_PADDING - 1) 0 = 32 then
        some (priority, b3.drop SYSLOG_PADDING, size3 - SYSLOG_PADDING)
      else some (priority, b3, size3)

/-- Line 197-198: `while ((oldest > newest) && (oldest <= next) && (oldest != log))
oldest = log_next(oldest, oldest->size);`. -/
def evict_linear : Nat → LogState → Nat → Option LogState
  | 0, _, _ => none
  | fuel + 1, s, next =>
    if s.oldest > s.newest ∧ s.oldest ≤ next ∧ s.oldest ≠ s.log then
      evict_linear fuel
        { s with oldest := log_next s s.oldest (to_int (rd32 s.mem (s.oldest + OFF_SIZE))) } next
    else some s

/-- Line 203: the condition and the step of
`for (oldest = log; oldest <= next; oldest = log_next(oldest, oldest->size));`. -/
def evict_wrap : Nat → LogState → Nat → Option LogState
  | 0, _, _ => none
  | fuel + 1, s, next =>
    if s.oldest ≤ next then
      evict_wrap fuel
        { s with oldest := log_next s s.oldest (to_int (rd32 s.mem (s.oldest + OFF_SIZE))) } next
    else some s

/-- Lines 209-214: the stores into the record at `p` (`newest`): `size`, `id`,
`priority`, `source`, the two words of `ts` and the string `buf` with its NUL. -/
def write_record (m : Mem) (p size id priority source : Nat) (ts : Nat × Nat)
    (buf : List Nat) : Mem :=
  let m1 := wr32 m (p + OFF_SIZE) size
  let m2 := wr32 m1 (p + OFF_ID) id
  let m3 := wr32 m2 (p + OFF_PRIORITY) priority
  let m4 := wr32 m3 (p + OFF_SOURCE) source
  let m5 := wr64 (wr64 m4 (p + OFF_TS) ts.1) (p + OFF_TS + 8) ts.2
  strcpy m5 (p + HDR) buf

/-- Lines 194-218 of `log_add`: eviction, the write of the record at `newest`
and the advance of `newest`. The result is the new state and the pointer handed
to `ubus_notify_log`. `ts` is what `clock_gettime` stores; `size` is the `int`
of line 188, which is not negative. -/
def log_add_insert (fuel : Nat) (priority : Nat) (buf : List Nat) (size source : Nat)
    (ts : Nat × Nat) (s : LogState) : Option (LogState × Nat) :=
  let next := log_next s s.newest (size : Int)
  let r : Option (LogState × Nat) :=
    if next > s.newest then
      (evict_linear fuel s next).map fun s1 => (s1, next)
    else
      let s1 := { s with mem := wr32 s.mem (s.newest + OFF_SIZE) 0 }
      let next := log_next s1 s1.log (size : Int)
      (evict_wrap fuel { s1 with oldest := s1.log } next).map fun s2 =>
        ({ s2 with newest := s2.log }, next)
  r.map fun (s3, next) =>
    let p := s3.newest
    ({ s3 with mem := write_record s3.mem p size s3.current_id priority source ts buf,
               current_id := s3.current_id + 1, newest := next }, p)

/-- The function `log_add(buf, size, source)` on the store: the new state and
the pointer handed to `ubus_notify_log`, `0` when the hook is not called. The
call of `log_add_udebug` at line 188 takes `buf` and `size` by value and writes
to the trace sinks only; it leaves the store as it is. -/
def log_add (fuel : Nat) (buf : List Nat) (size source : Nat) (ts : Nat × Nat)
    (s : LogState) : Option (LogState × Nat) :=
  if s.log = 0 then some (s, 0)
  else
    match log_add_parse buf size source with
    | none => none
    | some (priority, b, sz) =>
      if priority &&& LOG_FACMASK = LOG_LOCAL7 then some (s, 0)
      else log_add_insert fuel priority b sz source ts s

/-! ## `log_buffer_init` -/

/-- Lines 343-347: the migration loop. The state is `(mem, start, l)`; `s`
holds the globals, which the loop does not assign. -/
def migrate : Nat → LogState → Nat → Nat → Nat → Option (Mem × Nat)
  | 0, _, _, _, _ => none
  | fuel + 1, s, end_, start, l =>
    if start < end_ ∧ l ≠ 0 ∧ rd32 s.mem (l + OFF_SIZE) ≠ 0 then
      let sz := rd32 s.mem (l + OFF_SIZE)
      let m1 := memcpy s.mem start l (PAD_sum HDR sz)
      let start1 := l + HDR + PAD sz
      let s1 := { s with mem := m1 }
      match log_list (fuel + 1) s1 0 l with
      | none => none
      | some l1 => migrate fuel s1 end_ start1 l1
    else some (s.mem, start)

/-- The function `log_buffer_init(size)`. `alloc` is the result of `calloc(1, size)`: `none`
for `NULL`, else the address of the new block. The result is the return value
and the new state. -/
def log_buffer_init (fuel : Nat) (alloc : Option Nat) (size : Nat) (s : LogState) :
    Option (Int × LogState) :=
  match alloc with
  | none => some (-1, s)
  | some _log =>
    let s0 := { s with mem := calloc s.mem _log size }
    if s0.log ≠ 0 ∧ s0.log_size + HDR < size then
      let end_ := _log + size
      match log_list fuel s0 0 0 with
      | none => none
      | some l =>
        match migrate fuel s0 end_ _log l with
        | none => none
        | some (m, start) =>
          some (0, { s0 with mem := wr32 m (start + OFF_SIZE) 0, newest := start,
                             oldest := _log, log := _log, log_end := _log + size,
                             log_size := size })
    else
      some (0, { s0 with oldest := _log, newest := _log, log := _log,
                         log_end := _log + size, log_size := size })

/-! ## Enumeration and records -/

/-- Full enumeration by the caller's loop
`l = log_list(count, NULL); while (l) { ...; l = log_list(count, l); }`:
the pointers returned, in order. -/
def enum_from : Nat → LogState → Int → Nat → Option (List Nat)
  | 0, _, _, _ => none
  | fuel + 1, s, count, l =>
    if l = 0 then some []
    else
      match log_list (fuel + 1) s count l with
      | none => none
      | some l1 => (enum_from fuel s count l1).map fun r => l :: r

/-- Full enumeration from the cursor `NULL`. -/
def enumerate (fuel : Nat) (s : LogState) (count : Int) : Option (List Nat) :=
  match log_list fuel s count 0 with
  | none => none
  | some l => enum_from fuel s count l

/-- The fields of a record, as a consumer reads them through a pointer. -/
structure Record where
  size : Nat
  id : Nat
  priority : Nat
  source : Nat
  ts : Nat × Nat
  data : List Nat
deriving DecidableEq, Repr

/-- The record at `h`: header fields and `size` bytes of `data`. -/
def record_at (m : Mem) (h : Nat) : Record :=
  { size := rd32 m (h + OFF_SIZE), id := rd32 m (h + OFF_ID),
    priority := rd32 m (h + OFF_PRIORITY), source := rd32 m (h + OFF_SOURCE),
    ts := (rd64 m (h + OFF_TS), rd64 m (h + OFF_TS + 8)),
    data := rdBytes m (h + HDR) (rd32 m (h + OFF_SIZE)) }

/-! ## Runs of calls -/

/-- The arguments of one call `log_add(buf, size, source)`, with the time
`clock_gettime` reports during the call. -/
structure Call where
  buf : List Nat
  size : Nat
  source : Nat
  ts : Nat × Nat
deriving DecidableEq

/-- A sequence of `log_add` calls, in order. -/
def run_calls (fuel : Nat) : List Call → LogState → Option LogState
  | [], s => some s
  | c :: cs, s =>
    match log_add fuel c.buf c.size c.source c.ts s with
    | none => none
    | some (s1, _) => run_calls fuel cs s1

/-- The call `log_buffer_init(size)` of `log_init` at program start (the block
is at `base`), followed by a sequence of `log_add` calls. -/
def boot_run (fuel : Nat) (m : Mem) (base size : Nat) (cs : List Call) : Option LogState :=
  match log_buffer_init fuel (some base) size (boot m) with
  | none => none
  | some (_, s) => run_calls fuel cs s

/-- Memory holding zero everywhere. -/
def zero_mem : Mem := fun _ => 0

/-- The call `log_add("<14>" text, strlen + 1, SOURCE_KLOG)` at time `(7, 9)`. -/
def klog_call (text : List Nat) : Call :=
  { buf := [60, 49, 52, 62] ++ text ++ [0], size := text.length + 5, source := SOURCE_KLOG,
    ts := (7, 9) }

/-- Three kernel lines `<14>abc`, `<14>def`, `<14>ghi`; each record has the
footprint `32 + 4 = 36`. -/
def three_calls : List Call :=
  [klog_call [97, 98, 99], klog_call [100, 101, 102], klog_call [103, 104, 105]]

/-- Four kernel lines `<14>abc`, `<14>def`, `<14>ghijklm`, `<14>nop`, of
footprints 36, 36, 40 and 36. -/
def four_calls : List Call :=
  [klog_call [97, 98, 99], klog_call [100, 101, 102],
   klog_call [103, 104, 105, 106, 107, 108, 109], klog_call [110, 111, 112]]

/-- The footprint `sizeof(struct log_head) + PAD(size)` of the record a call
stores, `size` being the one of line 188. -/
def Call.footprint (c : Call) : Nat :=
  match log_add_parse c.buf c.size c.source with
  | some (_, _, sz) => HDR + PAD sz
  | none => 0

/-! ## Expected contents and layout -/

/-- The record a call stores under the id `id`: the fields as they stand at
lines 209-214. -/
def Call.record (c : Call) (id : Nat) : Record :=
  match log_add_parse c.buf c.size c.source with
  | some (p, b, sz) =>
    { size := sz, id := id, priority := p, source := c.source, ts := c.ts,
      data := cstr b ++ [0] }
  | none => { size := 0, id := id, priority := 0, source := c.source, ts := c.ts, data := [] }

/-- A retained call: it is made as both callers make it, with `size` the
length of the line plus one, the line is parsed, its facility is not the debug
facility, and the values are in the range of their C types. -/
def Call.retained (c : Call) : Bool :=
  match log_add_parse c.buf c.size c.source with
  | some (p, _, _) =>
    c.size == (cstr c.buf).length + 1 && (p &&& LOG_FACMASK != LOG_LOCAL7) &&
      decide (p < 2 ^ 31) && decide (c.source < 2 ^ 31) && decide (c.ts.1 < 2 ^ 63) &&
      decide (c.ts.2 < 2 ^ 63)
  | none => false

/-- The records a sequence of retained calls stores, the first under `id`. -/
def expected_records : List Call → Nat → List Record
  | [], _ => []
  | c :: cs, id => c.record id :: expected_records cs (id + 1)

/-- Records laid out back to back from `a` up to `b`. -/
def Chain (m : Mem) : Nat → List Record → Nat → Prop
  | a, [], b => a = b
  | a, r :: rs, b => record_at m a = r ∧ Chain m (a + HDR + PAD r.size) rs b

/-- The addresses of records laid out back to back from `a`. -/
def addrs : Nat → List Record → List Nat
  | _, [] => []
  | a, r :: rs => a :: addrs (a + HDR + PAD r.size) rs

/-- The layout of a store that has not wrapped: the region starts at `base`
and has `C` bytes, `oldest` is the region start and the records `rs`, with the
ids `0, 1, ...`, lie back to back from there up to `newest`. -/
structure Linear (base C : Nat) (s : LogState) (rs : List Record) : Prop where
  log_eq : s.log = base
  log_end_eq : s.log_end = base + C
  oldest_eq : s.oldest = base
  chain : Chain s.mem base rs s.newest
  id_eq : s.current_id = rs.length
  room : s.newest < base + C

/-- The first address, among records laid out back to back from `a`, whose
record has an id of at least `min`; `0` when there is none. -/
def first_ge (min : Nat) : Nat → List Record → Nat
  | _, [] => 0
  | a, r :: rs => if r.id ≥ min then a else first_ge min (a + HDR + PAD r.size) rs

/-- Two kernel lines `<14>abc`, `<14>def`, of footprint 36 each. -/
def two_calls : List Call := [klog_call [97, 98, 99], klog_call [100, 101, 102]]

/-- A run from program start followed by `log_buffer_init(size1)`, the new
block being at `base1`. -/
def boot_run_resize (fuel : Nat) (m : Mem) (base size : Nat) (cs : List Call)
    (base1 size1 : Nat) : Option (Int × LogState) :=
  match boot_run fuel m base size cs with
  | none => none
  | some s => log_buffer_init fuel (some base1) size1 s

/-! ## Stages of the sanitiser -/

/-- Lines 161-172 of `log_add`: line feeds replaced, trailing white space
trimmed and the NUL stored at `size - 1`. The result is `(buf, size)`. -/
def log_add_clean (buf : List Nat) (size : Nat) : Option (List Nat × Nat) :=
  match replace_newlines buf with
  | none => none
  | some b1 =>
    match trim_size b1 size with
    | none => none
    | some size1 => some (b1.set (size1 - 1) 0, size1)

/-- Lines 174-180 of `log_add`: the priority token. The result is
`(priority, buf, size)`. -/
def log_add_prio (buf : List Nat) (size : Nat) : Nat × List Nat × Nat :=
  match match_prio buf with
  | some so => (atoi (buf.drop 1), buf.drop so, size - so)
  | none => (0, buf, size)

/-- Lines 182-186 of `log_add`: the syslog time stamp. The result is
`(buf, size)`. -/
def log_add_strip (source : Nat) (buf : List Nat) (size : Nat) : List Nat × Nat :=
  if source = SOURCE_SYSLOG ∧ size > SYSLOG_PADDING ∧ buf.getD (SYSLOG_PADDING - 1) 0 = 32 then
    (buf.drop SYSLOG_PADDING, size - SYSLOG_PADDING)
  else (buf, size)

/-- The value of a string of decimal digits. -/
def decimal (ds : List Nat) : Nat := ds.foldl (fun acc c => 10 * acc + (c - 48)) 0

/-! ## The trace sink: `get_kernel_ts` and `log_add_udebug` -/

/-- Modelled from the spec: the constant `UDEBUG_TS_SEC` of the library header
`udebug.h`, which is not among the sources; the time stamps of the trace sinks
count microseconds (`ts_us = sec*1_000_000 + ...`). -/
def UDEBUG_TS_SEC : Nat := 1000000

/-- The call `strtoull(s, NULL, 10)`: white space, an optional sign, then the
value of the leading digits, at most `ULLONG_MAX`; a minus sign negates modulo
`2 ^ 64`. -/
def strtoull (bs : List Nat) : Nat :=
  let r := bs.dropWhile isspace
  let v (ds : List Nat) : Nat := min (decimal (ds.takeWhile isdigit)) (2 ^ 64 - 1)
  match r with
  | 45 :: r1 => (2 ^ 64 - v r1) % 2 ^ 64
  | 43 :: r1 => v r1
  | _ => v r

/-- The ways a digit run of the text can be split off, longest first: used for
`[ 0]*` and `[0-9]*`, which take the longest string that lets the rest of the
pattern match. -/
def run_lengths (p : Nat → Bool) (bs : List Nat) : List Nat :=
  (List.range ((bs.takeWhile p).length + 1)).reverse

/-- The call `regexec(&pat_tstamp, buf, ...)` for
`"^\\[[ 0]*([0-9]*).([0-9]*)\\] (.*)"`: on a match the result is
`(matches[1].rm_so, matches[2].rm_so, matches[3].rm_so)`. -/
def match_tstamp (buf : List Nat) : Option (Nat × Nat × Nat) :=
  match cstr buf with
  | 91 :: r =>
    (run_lengths (fun c => c == 32 || c == 48) r).findSome? fun a =>
      let r1 := r.drop a
      (run_lengths isdigit r1).findSome? fun b =>
        match r1.drop b with
        | [] => none
        | _ :: r3 =>
          (run_lengths isdigit r3).findSome? fun c =>
            match r3.drop c with
            | 93 :: 32 :: _ => some (1 + a, 1 + a + b + 1, 1 + a + b + 1 + c + 2)
            | _ => none
  | _ => none

/-- The function `get_kernel_ts(ts_sec, ts_nsec)`. `wall` and `mono` are the
results of the two calls of `clock_gettime`, `none` for a failure, else
`(tv_sec, tv_nsec)`; the arithmetic is the one of `uint64_t`. -/
def get_kernel_ts (ts_sec ts_nsec : List Nat) (wall mono : Option (Int × Int)) : Nat :=
  let ts : Nat := (strtoull ts_sec * UDEBUG_TS_SEC + strtoull ts_nsec / 1000) % 2 ^ 64
  match wall, mono with
  | some w, some mo =>
    let ts1 : Int := ((ts : Int) + (w.1 - mo.1) * (UDEBUG_TS_SEC : Int)) % 2 ^ 64
    ((ts1 + Int.tdiv (w.2 - mo.2) 1000) % 2 ^ 64).toNat
  | _, _ => 0

/-- What `log_add_udebug` hands to a trace sink: the ring (`0` for
`udb_kernel`, `1` for `udb_debug`, `2` for `udb_user`), the time stamp of
`udebug_entry_init_ts`, the priority printed by `udebug_entry_printf` and the
bytes of `udebug_entry_append`. -/
structure UdebugEntry where
  ring : Nat
  ts : Nat
  priority : Nat
  text : List Nat
deriving DecidableEq, Repr

/-- The function `log_add_udebug(priority, buf, size, source)`. `valid` is the
result of `udebug_buf_valid(udb)` for the three rings, `now` the result of
`udebug_timestamp()`. The result is the entry added, `none` when the ring is
not valid. -/
def log_add_udebug (valid : Nat → Bool) (wall mono : Option (Int × Int)) (now : Nat)
    (priority : Nat) (buf : List Nat) (size source : Nat) : Option UdebugEntry :=
  let udb : Nat :=
    if source = SOURCE_KLOG then 0
    else if priority &&& LOG_FACMASK = LOG_LOCAL7 then 1
    else 2
  if !valid udb then none
  else
    let (ts, buf1, size1) : Nat × List Nat × Nat :=
      match (if source = SOURCE_KLOG then match_tstamp buf else none) with
      | some (so1, so2, so3) =>
        (get_kernel_ts (buf.drop so1) (buf.drop so2) wall mono, buf.drop so3, size - so3)
      | none => (0, buf, size)
    let ts := if ts = 0 then now else ts
    some { ring := udb, ts := ts, priority := priority, text := buf1.take (size1 - 1) }

/-- The kernel line `<6>[   12.345678] eth0 up` with its NUL. -/
def kmsg_line : List Nat :=
  [60, 54, 62, 91, 32, 32, 32, 49, 50, 46, 51, 52, 53, 54, 55, 56, 93, 32,
   101, 116, 104, 48, 32, 117, 112, 0]

/-- Line 163 on one byte: a line feed becomes a space. -/
def nl_to_space (c : Nat) : Nat := if c = 10 then 32 else c

/-- The text of a line after lines 161-172, as the specification words it: every
line feed replaced by a space, then the longest trailing run of white space
removed. -/
def cleaned_text (text : List Nat) : List Nat :=
  (text.map nl_to_space).rdropWhile isspace

/-- The kernel line `<14>` followed by 39 letters `a`: `size` 40, footprint 72. -/
def long_call : Call := klog_call (List.replicate 39 97)

/-- The write position of a store whose region starts at `base` and has `C`
bytes: `newest` lies inside the region, a multiple of 4 above its start. -/
structure Placed (base C : Nat) (s : LogState) : Prop where
  log_eq : s.log = base
  log_end_eq : s.log_end = base + C
  newest_ge : base ≤ s.newest
  newest_lt : s.newest < base + C
  aligned : (s.newest - base) % 4 = 0

/-- Among records laid out back to back from `a`, the ones left once every
record that starts at or below `next` has been stepped over, with the address
the walk stops at. -/
def survivors (next : Nat) : Nat → List Record → Nat × List Record
  | a, [] => (a, [])
  | a, r :: rs => if a ≤ next then survivors next (a + HDR + PAD r.size) rs else (a, r :: rs)

/-- The live records of a store and where they lie. The records `lo` lie back
to back from the region start up to `newest`. The records `up`, older than
those of `lo`, lie back to back from `oldest` up to the end mark `e`, the slot
above `newest` where the last wrap stored a zero `size`; when there are none,
`oldest` is the region start. `id` is `current_id`. -/
structure Layout where
  up : List Record
  lo : List Record
  oldest : Nat
  e : Nat
  newest : Nat
  id : Nat
deriving DecidableEq

/-- The layout of the store as initialised: no record. -/
def Layout.init (base : Nat) : Layout :=
  { up := [], lo := [], oldest := base, e := 0, newest := base, id := 0 }

/-- The addresses of the live records, oldest first. -/
def Layout.live (base : Nat) (L : Layout) : List Nat :=
  addrs L.oldest L.up ++ addrs base L.lo

/-- The layout expected after one retained call on a region of `C` bytes at
`base`, for the inserts that leave `oldest` on a live record:
* the record fits below the region end and there is no record above `newest`:
  it is appended;
* it fits and a record above `newest` starts beyond its end: the records above
  `newest` that start at or below its end are gone;
* it fits, no record above `newest` starts beyond its end, its end reaches
  the end mark and the end mark lies in the last `sizeof(struct log_head)` bytes
  of the region: the records above `newest` are gone and `oldest` is the region
  start;
* it does not fit (the wrap), its footprint is below `C` and a record of `lo`
  starts beyond `base + footprint`: the records above `newest` and the records of
  `lo` that start at or below `base + footprint` are gone, the former `newest` is
  the end mark and the record lies at the region start.
In every other case the result is `none`. -/
def Layout.add (base C : Nat) (L : Layout) (c : Call) : Option Layout :=
  let r := c.record L.id
  let fp := c.footprint
  if L.newest + fp < base + C then
    if L.up = [] then
      some { L with lo := L.lo ++ [r], newest := L.newest + fp, id := L.id + 1 }
    else
      let os := survivors (L.newest + fp) L.oldest L.up
      if os.2 ≠ [] then
        some { L with up := os.2, oldest := os.1, lo := L.lo ++ [r], newest := L.newest + fp,
                      id := L.id + 1 }
      else if L.e ≤ L.newest + fp ∧ base + C ≤ L.e + HDR then
        some { L with up := [], oldest := base, lo := L.lo ++ [r], newest := L.newest + fp,
                      id := L.id + 1 }
      else none
  else
    let os := survivors (base + fp) base L.lo
    if fp < C ∧ os.2 ≠ [] then
      some { up := os.2, oldest := os.1, e := L.newest, lo := [r], newest := base + fp,
             id := L.id + 1 }
    else none

/-- The layout expected after a sequence of retained calls. -/
def Layout.run (base C : Nat) : List Call → Layout → Option Layout
  | [], L => some L
  | c :: cs, L =>
    match L.add base C c with
    | none => none
    | some L1 => Layout.run base C cs L1

/-- The layout expected after `log_buffer_init(C)` at program start, the block
being at `base`, and a sequence of retained calls. -/
def expected_layout (base C : Nat) (cs : List Call) : Option Layout :=
  Layout.run base C cs (Layout.init base)

/-- The store has the layout `L`. -/
structure Ring (base C : Nat) (s : LogState) (L : Layout) : Prop where
  log_eq : s.log = base
  log_end_eq : s.log_end = base + C
  oldest_eq : s.oldest = L.oldest
  newest_eq : s.newest = L.newest
  id_eq : s.current_id = L.id
  room : L.newest < base + C
  low : Chain s.mem base L.lo L.newest
  flat : L.up = [] → L.oldest = base
  upper : L.up ≠ [] → L.lo ≠ [] ∧ L.newest < L.oldest ∧ Chain s.mem L.oldest L.up L.e ∧
    rd32 s.mem (L.e + OFF_SIZE) = 0 ∧ L.e < base + C
  sizes : ∀ r ∈ L.up ++ L.lo, 0 < r.size ∧ r.size < 2147483648
  count : L.up.length + L.lo.length ≤ L.id

/-- The addresses among `l` that an insert keeps. `w` is `newest` before the
call, `q` the address the record is written at and `n` is `newest` after the
call. An address in the closed interval from `q` to `n` is dropped; when the
insert has wrapped (`q` is not `w`), so is an address that is not below `w`. -/
def kept_addrs (w q n : Nat) (l : List Nat) : List Nat :=
  l.filter fun a => !(decide (q ≤ a) && decide (a ≤ n)) && (decide (q = w) || decide (a < w))

/-- The address at which `log_add` is expected to store the record of the
call: `newest` when the footprint ends below the region end, else the region
start. -/
def Layout.slot (base C : Nat) (L : Layout) (c : Call) : Nat :=
  if L.newest + c.footprint < base + C then L.newest else base

/-- Six kernel lines of footprints 124, 36, 36, 84, 36 and 80. -/
def drop_calls : List Call :=
  [klog_call (List.replicate 91 97), klog_call [98, 98, 98], klog_call [99, 99, 99],
   klog_call (List.replicate 51 100), klog_call [101, 101, 101],
   klog_call (List.replicate 47 102)]

/-- Three kernel lines: 100 letters followed by the bytes `e0 ff ff ff`
(footprint 140), then two lines of 67 letters (footprint 100 each). -/
def stall_calls : List Call :=
  [klog_call (List.replicate 100 97 ++ [224, 255, 255, 255]), klog_call (List.replicate 67 98),
   klog_call (List.replicate 67 99)]

/-! # Theorems -/

/-! ## Memory and layout lemmas -/

theorem PAD_int_ofNat (n : Nat) : PAD_int (n : Int) = ((PAD n : Nat) : Int) := by
  unfold PAD_int PAD
  have h : Int.tmod (n : Int) 4 = ((n % 4 : Nat) : Int) := by
    rw [Int.tmod_eq_emod (by omega) (by omega)]
    omega
  rw [h]
  split <;> split <;> omega

theorem log_next_ofNat (s : LogState) (h n : Nat) :
    log_next s h (n : Int) =
      if h + HDR + PAD n ≥ s.log_end then s.log else h + HDR + PAD n := by
  unfold log_next
  rw [PAD_int_ofNat]
  simp only
  split <;> split <;> omega

theorem to_int_of_lt (v : Nat) (h : v < 2147483648) : to_int v = (v : Int) := by
  unfold to_int
  rw [Nat.mod_eq_of_lt (by omega), if_pos h]

theorem log_next_field (s : LogState) (h v : Nat) (hv : v < 2147483648) :
    log_next s h (to_int v) =
      if h + HDR + PAD v ≥ s.log_end then s.log else h + HDR + PAD v := by
  rw [to_int_of_lt v hv, log_next_ofNat]

theorem rd32_wr32_same (m : Mem) (a v : Nat) : rd32 (wr32 m a v) a = v % 4294967296 := by
  simp only [rd32, wr32]
  simp
  omega

theorem wr32_frame (m : Mem) (a v x : Nat) (h : x < a ∨ a + 4 ≤ x) : wr32 m a v x = m x := by
  simp only [wr32]
  have h1 : x ≠ a := by omega
  have h2 : x ≠ a + 1 := by omega
  have h3 : x ≠ a + 2 := by omega
  have h4 : x ≠ a + 3 := by omega
  simp [h1, h2, h3, h4]

theorem rd32_congr (m m' : Mem) (a : Nat) (h : ∀ x, a ≤ x → x < a + 4 → m' x = m x) :
    rd32 m' a = rd32 m a := by
  simp only [rd32]
  rw [h a (by omega) (by omega), h (a + 1) (by omega) (by omega),
    h (a + 2) (by omega) (by omega), h (a + 3) (by omega) (by omega)]

theorem rd64_congr (m m' : Mem) (a : Nat) (h : ∀ x, a ≤ x → x < a + 8 → m' x = m x) :
    rd64 m' a = rd64 m a := by
  simp only [rd64]
  rw [rd32_congr m m' a (fun x h1 h2 => h x h1 (by omega)),
    rd32_congr m m' (a + 4) (fun x h1 h2 => h x (by omega) (by omega))]

theorem wr64_frame (m : Mem) (a v x : Nat) (h : x < a ∨ a + 8 ≤ x) : wr64 m a v x = m x := by
  simp only [wr64]
  rw [wr32_frame _ _ _ _ (by omega), wr32_frame _ _ _ _ (by omega)]

theorem rd64_wr64_same (m : Mem) (a v : Nat) : rd64 (wr64 m a v) a = v % 18446744073709551616 := by
  simp only [rd64, wr64]
  rw [rd32_wr32_same]
  rw [rd32_congr (wr32 m a (v % 4294967296)) _ a (fun x h1 h2 => wr32_frame _ _ _ _ (by omega))]
  rw [rd32_wr32_same]
  omega

theorem wrBytes_frame (m : Mem) (a : Nat) (bs : List Nat) (x : Nat)
    (h : x < a ∨ a + bs.length ≤ x) : wrBytes m a bs x = m x := by
  simp only [wrBytes]
  rw [if_neg (by omega)]

theorem rdBytes_congr (m m' : Mem) (a n : Nat) (h : ∀ x, a ≤ x → x < a + n → m' x = m x) :
    rdBytes m' a n = rdBytes m a n := by
  simp only [rdBytes]
  apply List.map_congr_left
  intro i hi
  rw [List.mem_range] at hi
  exact h _ (by omega) (by omega)

theorem rdBytes_wrBytes (m : Mem) (a : Nat) (bs : List Nat) :
    rdBytes (wrBytes m a bs) a bs.length = bs := by
  apply List.ext_getElem
  · simp [rdBytes]
  · intro i h1 h2
    simp [rdBytes, wrBytes]
    simp at h1
    simp [h1, List.getD_eq_getElem?_getD, h2]

theorem rd32_wr32_other (m : Mem) (a b v : Nat) (h : a + 4 ≤ b ∨ b + 4 ≤ a) :
    rd32 (wr32 m a v) b = rd32 m b :=
  rd32_congr _ _ _ fun x h1 h2 => wr32_frame _ _ _ _ (by omega)

theorem rd32_wr64_other (m : Mem) (a b v : Nat) (h : a + 8 ≤ b ∨ b + 4 ≤ a) :
    rd32 (wr64 m a v) b = rd32 m b :=
  rd32_congr _ _ _ fun x h1 h2 => wr64_frame _ _ _ _ (by omega)

theorem rd32_wrBytes_other (m : Mem) (a b : Nat) (bs : List Nat) (h : a + bs.length ≤ b ∨ b + 4 ≤ a) :
    rd32 (wrBytes m a bs) b = rd32 m b :=
  rd32_congr _ _ _ fun x h1 h2 => wrBytes_frame _ _ _ _ (by omega)

theorem rd64_wr64_other (m : Mem) (a b v : Nat) (h : a + 8 ≤ b ∨ b + 8 ≤ a) :
    rd64 (wr64 m a v) b = rd64 m b :=
  rd64_congr _ _ _ fun x h1 h2 => wr64_frame _ _ _ _ (by omega)

theorem rd64_wrBytes_other (m : Mem) (a b : Nat) (bs : List Nat) (h : a + bs.length ≤ b ∨ b + 8 ≤ a) :
    rd64 (wrBytes m a bs) b = rd64 m b :=
  rd64_congr _ _ _ fun x h1 h2 => wrBytes_frame _ _ _ _ (by omega)

theorem write_record_frame (m : Mem) (p size id priority source : Nat) (ts : Nat × Nat)
    (buf : List Nat) (x : Nat) (h : x < p ∨ p + HDR + (cstr buf).length + 1 ≤ x) :
    write_record m p size id priority source ts buf x = m x := by
  simp only [write_record, strcpy, HDR, OFF_SIZE, OFF_ID, OFF_PRIORITY, OFF_SOURCE, OFF_TS] at *
  rw [wrBytes_frame _ _ _ _ (by simp; omega), wr64_frame _ _ _ _ (by omega),
    wr64_frame _ _ _ _ (by omega), wr32_frame _ _ _ _ (by omega), wr32_frame _ _ _ _ (by omega),
    wr32_frame _ _ _ _ (by omega), wr32_frame _ _ _ _ (by omega)]

theorem record_at_write_record (m : Mem) (p size id priority source : Nat) (ts : Nat × Nat)
    (buf : List Nat) (hsize : size = (cstr buf).length + 1) (h1 : size < 4294967296)
    (h2 : id < 4294967296) (h3 : priority < 4294967296) (h4 : source < 4294967296)
    (h5 : ts.1 < 18446744073709551616) (h6 : ts.2 < 18446744073709551616) :
    record_at (write_record m p size id priority source ts buf) p =
      { size := size, id := id, priority := priority, source := source, ts := ts,
        data := cstr buf ++ [0] } := by
  have hlen : (cstr buf ++ [0]).length = size := by simp [hsize]
  have e1 : rd32 (write_record m p size id priority source ts buf) (p + OFF_SIZE) = size := by
    simp only [write_record, strcpy, HDR, OFF_SIZE, OFF_ID, OFF_PRIORITY, OFF_SOURCE, OFF_TS]
    rw [rd32_wrBytes_other _ _ _ _ (by omega), rd32_wr64_other _ _ _ _ (by omega),
      rd32_wr64_other _ _ _ _ (by omega), rd32_wr32_other _ _ _ _ (by omega),
      rd32_wr32_other _ _ _ _ (by omega), rd32_wr32_other _ _ _ _ (by omega), rd32_wr32_same]
    omega
  have e2 : rd32 (write_record m p size id priority source ts buf) (p + OFF_ID) = id := by
    simp only [write_record, strcpy, HDR, OFF_SIZE, OFF_ID, OFF_PRIORITY, OFF_SOURCE, OFF_TS]
    rw [rd32_wrBytes_other _ _ _ _ (by omega), rd32_wr64_other _ _ _ _ (by omega),
      rd32_wr64_other _ _ _ _ (by omega), rd32_wr32_other _ _ _ _ (by omega),
      rd32_wr32_other _ _ _ _ (by omega), rd32_wr32_same]
    omega
  have e3 : rd32 (write_record m p size id priority source ts buf) (p + OFF_PRIORITY)
      = priority := by
    simp only [write_record, strcpy, HDR, OFF_SIZE, OFF_ID, OFF_PRIORITY, OFF_SOURCE, OFF_TS]
    rw [rd32_wrBytes_other _ _ _ _ (by omega), rd32_wr64_other _ _ _ _ (by omega),
      rd32_wr64_other _ _ _ _ (by omega), rd32_wr32_other _ _ _ _ (by omega), rd32_wr32_same]
    omega
  have e4 : rd32 (write_record m p size id priority source ts buf) (p + OFF_SOURCE)
      = source := by
    simp only [write_record, strcpy, HDR, OFF_SIZE, OFF_ID, OFF_PRIORITY, OFF_SOURCE, OFF_TS]
    rw [rd32_wrBytes_other _ _ _ _ (by omega), rd32_wr64_other _ _ _ _ (by omega),
      rd32_wr64_other _ _ _ _ (by omega), rd32_wr32_same]
    omega
  have e5 : rd64 (write_record m p size id priority source ts buf) (p + OFF_TS) = ts.1 := by
    simp only [write_record, strcpy, HDR, OFF_SIZE, OFF_ID, OFF_PRIORITY, OFF_SOURCE, OFF_TS]
    rw [rd64_wrBytes_other _ _ _ _ (by omega), rd64_wr64_other _ _ _ _ (by omega),
      rd64_wr64_same]
    omega
  have e6 : rd64 (write_record m p size id priority source ts buf) (p + OFF_TS + 8) = ts.2 := by
    simp only [write_record, strcpy, HDR, OFF_SIZE, OFF_ID, OFF_PRIORITY, OFF_SOURCE, OFF_TS]
    rw [rd64_wrBytes_other _ _ _ _ (by omega), rd64_wr64_same]
    omega
  have e7 : rdBytes (write_record m p size id priority source ts buf) (p + HDR) size
      = cstr buf ++ [0] := by
    simp only [write_record, strcpy]
    rw [← hlen]
    exact rdBytes_wrBytes _ _ _
  simp only [record_at, e1, e2, e3, e4, e5, e6, e7]

theorem record_at_congr (m m' : Mem) (h : Nat)
    (hm : ∀ x, h ≤ x → x < h + HDR + rd32 m (h + OFF_SIZE) → m' x = m x) :
    record_at m' h = record_at m h := by
  simp only [HDR, OFF_SIZE, OFF_ID, OFF_PRIORITY, OFF_SOURCE, OFF_TS, record_at, Nat.add_zero] at *
  have e1 : rd32 m' h = rd32 m h := rd32_congr _ _ _ fun x h1 h2 => hm x h1 (by omega)
  have e2 : rd32 m' (h + 4) = rd32 m (h + 4) :=
    rd32_congr _ _ _ fun x h1 h2 => hm x (by omega) (by omega)
  have e3 : rd32 m' (h + 8) = rd32 m (h + 8) :=
    rd32_congr _ _ _ fun x h1 h2 => hm x (by omega) (by omega)
  have e4 : rd32 m' (h + 12) = rd32 m (h + 12) :=
    rd32_congr _ _ _ fun x h1 h2 => hm x (by omega) (by omega)
  have e5 : rd64 m' (h + 16) = rd64 m (h + 16) :=
    rd64_congr _ _ _ fun x h1 h2 => hm x (by omega) (by omega)
  have e6 : rd64 m' (h + 16 + 8) = rd64 m (h + 16 + 8) :=
    rd64_congr _ _ _ fun x h1 h2 => hm x (by omega) (by omega)
  have e7 : rdBytes m' (h + 32) (rd32 m h) = rdBytes m (h + 32) (rd32 m h) :=
    rdBytes_congr _ _ _ _ fun x h1 h2 => hm x (by omega) (by omega)
  simp only [e1, e2, e3, e4, e5, e6, e7]

theorem le_PAD (x : Nat) : x ≤ PAD x := by
  unfold PAD
  split <;> omega

theorem chain_le (m : Mem) : ∀ (rs : List Record) (a b : Nat), Chain m a rs b → a ≤ b
  | [], a, b, h => by simp only [Chain] at h; omega
  | r :: rs, a, b, h => by
    simp only [Chain] at h
    have := chain_le m rs _ _ h.2
    omega

theorem chain_congr (m m' : Mem) : ∀ (rs : List Record) (a b : Nat), Chain m a rs b →
    (∀ x, a ≤ x → x < b → m' x = m x) → Chain m' a rs b
  | [], a, b, h, _ => by simpa only [Chain] using h
  | r :: rs, a, b, h, hm => by
    simp only [Chain] at h ⊢
    obtain ⟨h1, h2⟩ := h
    have hle := chain_le m rs _ _ h2
    have hsz : rd32 m (a + OFF_SIZE) = r.size := by rw [← h1]; rfl
    have hp := le_PAD r.size
    refine ⟨?_, chain_congr m m' rs _ _ h2 fun x hx1 hx2 => hm x (by omega) hx2⟩
    rw [record_at_congr m m' a (fun x hx1 hx2 => hm x hx1 (by omega)), h1]

theorem chain_snoc (m : Mem) (r : Record) : ∀ (rs : List Record) (a b : Nat), Chain m a rs b →
    record_at m b = r → Chain m a (rs ++ [r]) (b + HDR + PAD r.size)
  | [], a, b, h, hr => by
    simp only [Chain] at h
    subst h
    simp only [List.nil_append, Chain]
    exact ⟨hr, trivial⟩
  | r' :: rs, a, b, h, hr => by
    simp only [Chain, List.cons_append] at h ⊢
    exact ⟨h.1, chain_snoc m r rs _ _ h.2 hr⟩

theorem map_record_at_addrs (m : Mem) : ∀ (rs : List Record) (a b : Nat), Chain m a rs b →
    (addrs a rs).map (record_at m) = rs
  | [], _, _, _ => rfl
  | r :: rs, a, b, h => by
    simp only [Chain] at h
    simp only [addrs, List.map_cons, h.1, map_record_at_addrs m rs _ _ h.2]

theorem log_add_insert_linear (fuel priority : Nat) (buf : List Nat) (size source : Nat)
    (ts : Nat × Nat) (s : LogState) (hfuel : 0 < fuel) (hold : s.oldest ≤ s.newest)
    (hfit : s.newest + HDR + PAD size < s.log_end) :
    log_add_insert fuel priority buf size source ts s =
      some ({ s with mem := write_record s.mem s.newest size s.current_id priority source ts buf,
                     current_id := s.current_id + 1,
                     newest := s.newest + HDR + PAD size }, s.newest) := by
  obtain ⟨f, rfl⟩ : ∃ f, fuel = f + 1 := ⟨fuel - 1, by omega⟩
  have hn : log_next s s.newest size = s.newest + HDR + PAD size := by
    simp only [log_next_ofNat]
    rw [if_neg (by omega)]
  have hev : evict_linear (f + 1) s (s.newest + HDR + PAD size) = some s := by
    simp only [evict_linear]
    rw [if_neg (by omega)]
  simp only [log_add_insert, hn]
  rw [if_pos (by simp only [HDR]; omega), hev]
  rfl

theorem chain_length (m : Mem) : ∀ (rs : List Record) (a b : Nat), Chain m a rs b →
    a + 32 * rs.length ≤ b
  | [], a, b, h => by simp only [Chain] at h; simp; omega
  | r :: rs, a, b, h => by
    simp only [Chain] at h
    have := chain_length m rs _ _ h.2
    simp only [List.length_cons, HDR] at *
    omega

theorem cstr_cons_ne (c : Nat) (cs : List Nat) (h : c ≠ 0) : cstr (c :: cs) = c :: cstr cs := by
  simp only [cstr]
  rw [List.takeWhile_cons_of_pos]
  simpa using h

theorem cstr_cons_zero (cs : List Nat) : cstr (0 :: cs) = [] := by
  simp [cstr, List.takeWhile]

theorem cstr_length_le (l : List Nat) : (cstr l).length ≤ l.length := by
  simp only [cstr]
  exact (List.takeWhile_sublist _).length_le

theorem replace_newlines_cstr : ∀ (buf b1 : List Nat), replace_newlines buf = some b1 →
    (cstr b1).length = (cstr buf).length ∧ (cstr buf).length < b1.length
  | [], _, h => by simp [replace_newlines] at h
  | c :: cs, b1, h => by
    simp only [replace_newlines] at h
    by_cases hc : c = 0
    · rw [if_pos hc] at h
      simp only [Option.some.injEq] at h
      subst h; subst hc
      simp [cstr_cons_zero]
    · rw [if_neg hc] at h
      simp only [Option.map_eq_some'] at h
      obtain ⟨r, hr, rfl⟩ := h
      have ih := replace_newlines_cstr cs r hr
      have hc' : (if c = 10 then 32 else c) ≠ 0 := by split <;> omega
      rw [cstr_cons_ne _ _ hc', cstr_cons_ne _ _ hc]
      simp only [List.length_cons]
      omega

theorem trim_size_bounds (buf : List Nat) : ∀ (size size1 : Nat),
    trim_size buf size = some size1 → 2 ≤ size1 ∧ size1 ≤ size
  | 0, _, h => by simp [trim_size] at h
  | 1, _, h => by simp [trim_size] at h
  | n + 2, size1, h => by
    simp only [trim_size] at h
    split at h
    · simp at h
    · split at h
      · have := trim_size_bounds buf (n + 1) size1 h
        omega
      · simp only [Option.some.injEq] at h
        omega

theorem cstr_set_zero : ∀ (l : List Nat) (k : Nat), k ≤ (cstr l).length → k < l.length →
    (cstr (l.set k 0)).length = k
  | [], _, _, h => by simp at h
  | c :: cs, 0, _, _ => by simp [cstr_cons_zero]
  | c :: cs, k + 1, h1, h2 => by
    have hc : c ≠ 0 := by
      intro h0; subst h0; simp [cstr_cons_zero] at h1
    rw [cstr_cons_ne _ _ hc] at h1
    simp only [List.set_cons_succ, cstr_cons_ne _ _ hc, List.length_cons] at h1 h2 ⊢
    rw [cstr_set_zero cs k (by omega) (by omega)]

theorem cstr_drop : ∀ (l : List Nat) (k : Nat), k ≤ (cstr l).length →
    (cstr (l.drop k)).length = (cstr l).length - k
  | _, 0, _ => by simp
  | [], k + 1, h => by simp [cstr] at h
  | c :: cs, k + 1, h => by
    have hc : c ≠ 0 := by
      intro h0; subst h0; simp [cstr_cons_zero] at h
    rw [cstr_cons_ne _ _ hc] at h ⊢
    simp only [List.drop_succ_cons, List.length_cons] at h ⊢
    rw [cstr_drop cs k (by omega)]
    omega

theorem match_prio_le (buf : List Nat) (so : Nat) (h : match_prio buf = some so) :
    so ≤ (cstr buf).length := by
  unfold match_prio at h
  split at h
  · simp at h
  · rename_i c cs hcs
    rw [hcs]
    split at h
    · simp only at h
      split at h
      · simp at h
      · rename_i d rest hd
        split at h
        · simp only [Option.some.injEq] at h
          have hlen : (List.drop (List.takeWhile isdigit cs).length cs).length = (d :: rest).length := by
            rw [hd]
          simp only [List.length_drop, List.length_cons] at hlen
          simp only [List.length_cons]
          omega
        · simp at h
    · simp at h

/-- The sanitiser keeps `size` equal to the length of the text plus one when
the caller passes it so. -/
theorem log_add_parse_size (buf : List Nat) (size source p : Nat) (b : List Nat) (sz : Nat)
    (hsize : size = (cstr buf).length + 1)
    (h : log_add_parse buf size source = some (p, b, sz)) : sz = (cstr b).length + 1 := by
  unfold log_add_parse at h
  split at h
  · simp at h
  · rename_i b1 hb1
    obtain ⟨hl1, hl2⟩ := replace_newlines_cstr _ _ hb1
    split at h
    · simp at h
    · rename_i size1 hs1
      obtain ⟨ht1, ht2⟩ := trim_size_bounds _ _ _ hs1
      have hb2 : (cstr (b1.set (size1 - 1) 0)).length = size1 - 1 :=
        cstr_set_zero b1 (size1 - 1) (by omega) (by omega)
      cases hm : match_prio (b1.set (size1 - 1) 0) with
      | some so =>
        have hso' := match_prio_le _ _ hm
        have hb3 := cstr_drop (b1.set (size1 - 1) 0) so hso'
        simp only [hm] at h
        split at h
        · rename_i hcond
          simp only [Option.some.injEq, Prod.mk.injEq] at h
          obtain ⟨_, rfl, rfl⟩ := h
          simp only [SYSLOG_PADDING] at hcond ⊢
          rw [cstr_drop _ 16 (by omega)]
          omega
        · simp only [Option.some.injEq, Prod.mk.injEq] at h
          obtain ⟨_, rfl, rfl⟩ := h
          omega
      | none =>
        simp only [hm] at h
        split at h
        · rename_i hcond
          simp only [Option.some.injEq, Prod.mk.injEq] at h
          obtain ⟨_, rfl, rfl⟩ := h
          simp only [SYSLOG_PADDING] at hcond ⊢
          rw [cstr_drop _ 16 (by omega)]
          omega
        · simp only [Option.some.injEq, Prod.mk.injEq] at h
          obtain ⟨_, rfl, rfl⟩ := h
          omega

theorem retained_parse (c : Call) (h : c.retained = true) :
    ∃ p b sz, log_add_parse c.buf c.size c.source = some (p, b, sz) ∧
      p &&& LOG_FACMASK ≠ LOG_LOCAL7 ∧ sz = (cstr b).length + 1 ∧ p < 2 ^ 31 ∧
      c.source < 2 ^ 31 ∧ c.ts.1 < 2 ^ 63 ∧ c.ts.2 < 2 ^ 63 := by
  unfold Call.retained at h
  split at h
  · rename_i p b sz hp
    simp only [Bool.and_eq_true, bne_iff_ne, ne_eq, beq_iff_eq, decide_eq_true_eq] at h
    exact ⟨p, b, sz, hp, h.1.1.1.1.2, log_add_parse_size _ _ _ _ _ _ h.1.1.1.1.1 hp,
      h.1.1.1.2, h.1.1.2, h.1.2, h.2⟩
  · simp at h

theorem log_add_linear_step (fuel base C : Nat) (s : LogState) (rs : List Record) (c : Call)
    (hfuel : 0 < fuel) (hbase : 0 < base) (hC : C < 2 ^ 31) (hlin : Linear base C s rs)
    (hret : c.retained = true) (hfit : s.newest + c.footprint < base + C) :
    ∃ s', log_add fuel c.buf c.size c.source c.ts s = some (s', s.newest) ∧
      Linear base C s' (rs ++ [c.record s.current_id]) ∧
      s'.newest = s.newest + c.footprint := by
  obtain ⟨p, b, sz, hp, hdbg, hsz, hpr, hsrc, hts1, hts2⟩ := retained_parse c hret
  have hfp : c.footprint = HDR + PAD sz := by simp only [Call.footprint, hp]
  have hrec : c.record s.current_id =
      ⟨sz, s.current_id, p, c.source, c.ts, cstr b ++ [0]⟩ := by
    simp only [Call.record, hp]
  have hle := chain_le _ _ _ _ hlin.chain
  have hlen := chain_length _ _ _ _ hlin.chain
  have hpad := le_PAD sz
  have hid := hlin.id_eq
  simp only [HDR] at hfp
  have hins := log_add_insert_linear fuel p b sz c.source c.ts s hfuel
    (by rw [hlin.oldest_eq]; exact hle) (by rw [hlin.log_end_eq]; simp only [HDR]; omega)
  refine ⟨{ s with mem := write_record s.mem s.newest sz s.current_id p c.source c.ts b,
                   current_id := s.current_id + 1,
                   newest := s.newest + HDR + PAD sz }, ?_, ?_, ?_⟩
  · simp only [log_add, hp]
    rw [if_neg (by rw [hlin.log_eq]; omega), if_neg hdbg]
    exact hins
  · refine ⟨hlin.log_eq, hlin.log_end_eq, hlin.oldest_eq, ?_, ?_, by simp only [HDR]; omega⟩
    · have h1 : Chain (write_record s.mem s.newest sz s.current_id p c.source c.ts b) base rs
          s.newest :=
        chain_congr _ _ _ _ _ hlin.chain fun x _ hx2 => write_record_frame _ _ _ _ _ _ _ _ _
          (Or.inl hx2)
      have h2 := chain_snoc _ (c.record s.current_id) _ _ _ h1
        (by rw [hrec]
            exact record_at_write_record _ _ _ _ _ _ _ _ hsz (by omega) (by omega) (by omega)
              (by omega) (by omega) (by omega))
      rw [hrec] at h2 ⊢
      exact h2
    · simp [hid]
  · simp only [HDR]
    omega

theorem run_calls_linear (fuel base C : Nat) (hfuel : 0 < fuel) (hbase : 0 < base)
    (hC : C < 2 ^ 31) : ∀ (cs : List Call) (s : LogState) (rs : List Record),
    Linear base C s rs → (∀ c ∈ cs, c.retained = true) →
    s.newest + (cs.map Call.footprint).sum < base + C →
    ∃ s', run_calls fuel cs s = some s' ∧
      Linear base C s' (rs ++ expected_records cs rs.length) ∧
      s'.newest = s.newest + (cs.map Call.footprint).sum
  | [], s, rs, hlin, _, _ => ⟨s, rfl, by simpa [expected_records] using hlin, by simp⟩
  | c :: cs, s, rs, hlin, hret, hfit => by
    simp only [List.map_cons, List.sum_cons] at hfit
    obtain ⟨s1, h1, hlin1, hn1⟩ := log_add_linear_step fuel base C s rs c hfuel hbase hC hlin
      (hret c (List.mem_cons_self _ _)) (by omega)
    obtain ⟨s2, h2, hlin2, hn2⟩ := run_calls_linear fuel base C hfuel hbase hC cs s1 _ hlin1
      (fun c' hc' => hret c' (List.mem_cons_of_mem _ hc')) (by omega)
    refine ⟨s2, ?_, ?_, ?_⟩
    · simp only [run_calls, h1, h2]
    · simpa [expected_records, hlin.id_eq] using hlin2
    · simp only [List.map_cons, List.sum_cons]
      omega

theorem log_buffer_init_boot (fuel : Nat) (m : Mem) (base C : Nat) :
    log_buffer_init fuel (some base) C (boot m) = some (0, fresh m base C) := by
  simp [log_buffer_init, boot, fresh]

theorem chain_size_lt (m : Mem) : ∀ (rs : List Record) (a b : Nat), Chain m a rs b →
    b ≤ a + 2147483648 → ∀ r ∈ rs, r.size < 2147483648
  | [], _, _, _, _ => by simp
  | r :: rs, a, b, h, hb => by
    simp only [Chain] at h
    have hle := chain_le m rs _ _ h.2
    have hp := le_PAD r.size
    intro x hx
    simp only [List.mem_cons] at hx
    rcases hx with rfl | hx
    · simp only [HDR] at hle; omega
    · exact chain_size_lt m rs _ b h.2 (by omega) x hx

theorem log_list_loop_chain (s : LogState) (min : Nat) (hend : s.newest < s.log_end) :
    ∀ (rs : List Record) (r : Record) (a fuel : Nat), Chain s.mem a (r :: rs) s.newest →
      (∀ x ∈ r :: rs, x.size < 2147483648) → rs.length + 1 < fuel →
      log_list_loop fuel s min a = some (first_ge min (a + HDR + PAD r.size) rs)
  | [], r, a, fuel, hch, hlt, hfuel => by
    obtain ⟨f, rfl⟩ : ∃ f, fuel = f + 2 := ⟨fuel - 2, by simp at hfuel; omega⟩
    simp only [Chain] at hch
    obtain ⟨h1, h2⟩ := hch
    have hsz : rd32 s.mem (a + OFF_SIZE) = r.size := by rw [← h1]; rfl
    have hn : log_next s a (to_int r.size) = s.newest := by
      rw [log_next_field _ _ _ (hlt r (List.mem_cons_self _ _)), if_neg (by omega)]
      exact h2
    have hne : a ≠ s.newest := by simp only [HDR] at h2; omega
    simp [log_list_loop, hsz, hn, first_ge, hne]
  | r' :: rs, r, a, fuel, hch, hlt, hfuel => by
    obtain ⟨f, rfl⟩ : ∃ f, fuel = f + 1 := ⟨fuel - 1, by simp at hfuel; omega⟩
    have hch' := hch
    simp only [Chain] at hch
    obtain ⟨h1, h2, h3⟩ := hch
    have hsz : rd32 s.mem (a + OFF_SIZE) = r.size := by rw [← h1]; rfl
    have hid : rd32 s.mem (a + HDR + PAD r.size + OFF_ID) = r'.id := by rw [← h2]; rfl
    have hle := chain_le _ _ _ _ h3
    have hn : log_next s a (to_int r.size) = a + HDR + PAD r.size := by
      rw [log_next_field _ _ _ (hlt r (List.mem_cons_self _ _)),
        if_neg (by simp only [HDR] at *; omega)]
    have ih := log_list_loop_chain s min hend rs r' (a + HDR + PAD r.size) f
      (by simp only [Chain]; exact ⟨h2, h3⟩) (fun x hx => hlt x (List.mem_cons_of_mem _ hx))
      (by simp at hfuel; omega)
    have hne : a ≠ s.newest := by simp only [HDR] at *; omega
    have hne2 : a + HDR + PAD r.size ≠ s.newest := by simp only [HDR] at *; omega
    have hgt : ¬ (s.newest < a + HDR + PAD r.size) := by simp only [HDR] at *; omega
    by_cases hge : min ≤ r'.id
    · simp [log_list_loop, hsz, hn, first_ge, hne, hne2, hgt, hid, hge]
    · simp [log_list_loop, hsz, hn, first_ge, hne, hne2, hgt, hid, hge, ih]

theorem log_list_min_zero (s : LogState) : log_list_min s 0 = 0 := by
  simp [log_list_min]

theorem enum_from_chain (s : LogState) (hend : s.newest < s.log_end) :
    ∀ (rs : List Record) (r : Record) (a F : Nat), Chain s.mem a (r :: rs) s.newest →
      (∀ x ∈ r :: rs, x.size < 2147483648) →
      0 < a → rs.length + 1 < F → enum_from F s 0 a = some (addrs a (r :: rs))
  | [], r, a, F, hch, hlt, ha, hF => by
    obtain ⟨f, rfl⟩ : ∃ f, F = f + 2 := ⟨F - 2, by simp at hF; omega⟩
    have hl := log_list_loop_chain s 0 hend [] r a (f + 2) hch hlt (by simp)
    simp only [enum_from, log_list, log_list_min_zero]
    rw [if_neg (by omega), if_neg (by omega), if_neg (by omega), hl]
    simp [first_ge, addrs]
  | r' :: rs, r, a, F, hch, hlt, ha, hF => by
    obtain ⟨f, rfl⟩ : ∃ f, F = f + 1 := ⟨F - 1, by simp at hF; omega⟩
    have hl := log_list_loop_chain s 0 hend (r' :: rs) r a (f + 1) hch hlt hF
    have hch' := hch
    simp only [Chain] at hch'
    have ih := enum_from_chain s hend rs r' (a + HDR + PAD r.size) f
      (by simp only [Chain]; exact hch'.2) (fun x hx => hlt x (List.mem_cons_of_mem _ hx))
      (by omega) (by simp at hF; omega)
    simp only [enum_from, log_list, log_list_min_zero]
    rw [if_neg (by omega), if_neg (by omega), if_neg (by omega), hl]
    simp only [first_ge, ge_iff_le, Nat.zero_le, if_true, ih, Option.map_some', addrs]

theorem enumerate_chain (s : LogState) (hend : s.newest < s.log_end) (rs : List Record)
    (r : Record) (F : Nat) (hch : Chain s.mem s.oldest (r :: rs) s.newest)
    (hlt : ∀ x ∈ r :: rs, x.size < 2147483648) (ha : 0 < s.oldest)
    (hF : rs.length + 1 < F) : enumerate F s 0 = some (addrs s.oldest (r :: rs)) := by
  simp only [enumerate, log_list, log_list_min_zero, ge_iff_le, Nat.zero_le, and_self, if_true]
  exact enum_from_chain s hend rs r _ F hch hlt ha hF

theorem expected_records_length : ∀ (cs : List Call) (n : Nat),
    (expected_records cs n).length = cs.length
  | [], _ => rfl
  | c :: cs, n => by simp [expected_records, expected_records_length cs]

theorem boot_run_linear (fuel : Nat) (m : Mem) (base C : Nat) (cs : List Call)
    (hfuel : 0 < fuel) (hbase : 0 < base) (hC : C < 2 ^ 31)
    (hret : ∀ c ∈ cs, c.retained = true) (hsum : (cs.map Call.footprint).sum < C) :
    ∃ s, boot_run fuel m base C cs = some s ∧ Linear base C s (expected_records cs 0) ∧
      s.newest = base + (cs.map Call.footprint).sum := by
  have h0 : Linear base C (fresh m base C) [] :=
    ⟨rfl, rfl, rfl, rfl, rfl, by simp only [fresh]; omega⟩
  obtain ⟨s, hs, hlin, hn⟩ := run_calls_linear fuel base C hfuel hbase hC cs _ [] h0 hret
    (by simpa [fresh] using hsum)
  refine ⟨s, ?_, by simpa using hlin, by simpa [fresh] using hn⟩
  simp only [boot_run, log_buffer_init_boot]
  exact hs

theorem linear_enumerate (base C : Nat) (s : LogState) (rs : List Record) (F : Nat)
    (hbase : 0 < base) (hC : C < 2 ^ 31) (hlin : Linear base C s rs) (hne : rs ≠ [])
    (hF : rs.length < F) :
    enumerate F s 0 = some (addrs base rs) := by
  cases rs with
  | nil => exact absurd rfl hne
  | cons r rs =>
    have hroom := hlin.room
    have he := enumerate_chain s (by rw [hlin.log_end_eq]; exact hlin.room) rs r F
      (by rw [hlin.oldest_eq]; exact hlin.chain)
      (chain_size_lt _ _ _ _ hlin.chain (by omega))
      (by rw [hlin.oldest_eq]; exact hbase)
      (by simpa using hF)
    rw [he, hlin.oldest_eq]

theorem expected_records_ne_nil (cs : List Call) (n : Nat) (hne : cs ≠ []) :
    expected_records cs n ≠ [] := by
  cases cs with
  | nil => exact absurd rfl hne
  | cons c cs => simp [expected_records]

theorem le_of_mem_addrs : ∀ (rs : List Record) (a h : Nat), h ∈ addrs a rs → a ≤ h
  | [], _, _, hm => by simp [addrs] at hm
  | r :: rs, a, h, hm => by
    simp only [addrs, List.mem_cons] at hm
    rcases hm with rfl | hm
    · exact Nat.le_refl _
    · have := le_of_mem_addrs rs _ h hm
      omega

theorem evict_wrap_some : ∀ (fuel : Nat) (s s' : LogState) (next : Nat),
    evict_wrap fuel s next = some s' → ∃ o, s' = { s with oldest := o }
  | 0, _, _, _, h => by simp [evict_wrap] at h
  | f + 1, s, s', next, h => by
    simp only [evict_wrap] at h
    split at h
    · obtain ⟨o, ho⟩ := evict_wrap_some f _ s' next h
      exact ⟨o, ho⟩
    · exact ⟨s.oldest, by simpa using h.symm⟩

theorem rd32_write_record_size (m : Mem) (p size id priority source : Nat) (ts : Nat × Nat)
    (buf : List Nat) :
    rd32 (write_record m p size id priority source ts buf) (p + OFF_SIZE) = size % 4294967296 := by
  simp only [write_record, strcpy, HDR, OFF_SIZE, OFF_ID, OFF_PRIORITY, OFF_SOURCE, OFF_TS]
  rw [rd32_wrBytes_other _ _ _ _ (by omega), rd32_wr64_other _ _ _ _ (by omega),
    rd32_wr64_other _ _ _ _ (by omega), rd32_wr32_other _ _ _ _ (by omega),
    rd32_wr32_other _ _ _ _ (by omega), rd32_wr32_other _ _ _ _ (by omega), rd32_wr32_same]

theorem log_add_parse_stages (buf : List Nat) (size source : Nat) :
    log_add_parse buf size source =
      (log_add_clean buf size).map fun x =>
        ((log_add_prio x.1 x.2).1,
          log_add_strip source (log_add_prio x.1 x.2).2.1 (log_add_prio x.1 x.2).2.2) := by
  unfold log_add_parse log_add_clean
  cases h1 : replace_newlines buf with
  | none => rfl
  | some b1 =>
    dsimp only
    cases h2 : trim_size b1 size with
    | none => rfl
    | some size1 =>
      dsimp only [Option.map_some', log_add_prio, log_add_strip]
      cases h3 : match_prio (b1.set (size1 - 1) 0) with
      | none => dsimp only; split <;> rfl
      | some so => dsimp only; split <;> rfl

theorem cstr_append_zero : ∀ (t rest : List Nat), (∀ c ∈ t, c ≠ 0) → cstr (t ++ 0 :: rest) = t
  | [], rest, _ => by simp [cstr_cons_zero]
  | c :: t, rest, h => by
    have hc : c ≠ 0 := h c (List.mem_cons_self _ _)
    rw [List.cons_append, cstr_cons_ne _ _ hc,
      cstr_append_zero t rest fun x hx => h x (List.mem_cons_of_mem _ hx)]

theorem replace_newlines_append : ∀ (t rest : List Nat), (∀ c ∈ t, c ≠ 0) →
    replace_newlines (t ++ 0 :: rest) = some (t.map nl_to_space ++ 0 :: rest)
  | [], rest, _ => by simp [replace_newlines]
  | c :: t, rest, h => by
    have hc : c ≠ 0 := h c (List.mem_cons_self _ _)
    have ih := replace_newlines_append t rest fun x hx => h x (List.mem_cons_of_mem _ hx)
    show replace_newlines (c :: (t ++ 0 :: rest)) = _
    simp only [replace_newlines, if_neg hc, ih, Option.map_some', List.map_cons, nl_to_space,
      List.cons_append]

theorem trim_size_append (t : List Nat) : ∀ (tail : List Nat),
    (∃ c ∈ t, isspace c = false) →
    trim_size (t ++ tail) (t.length + 1) = some ((t.rdropWhile isspace).length + 1) := by
  induction t using List.reverseRecOn with
  | nil => intro tail h; simp at h
  | append_singleton t0 c ih =>
    intro tail h
    have hget : (t0 ++ [c] ++ tail).get? t0.length = some c := by
      rw [List.append_assoc, List.get?_eq_getElem?, List.getElem?_append_right (Nat.le_refl _)]
      simp
    simp only [List.length_append, List.length_singleton, trim_size, hget,
      List.rdropWhile_concat]
    by_cases hc : isspace c = true
    · simp only [hc, if_true]
      have h' : ∃ x ∈ t0, isspace x = false := by
        obtain ⟨x, hx, hxs⟩ := h
        simp only [List.mem_append, List.mem_singleton] at hx
        rcases hx with hx | rfl
        · exact ⟨x, hx, hxs⟩
        · rw [hc] at hxs; exact absurd hxs (by simp)
      have := ih (c :: tail) h'
      simpa using this
    · simp [hc]

theorem cstr_set_zero_eq : ∀ (l : List Nat) (k : Nat), k ≤ (cstr l).length → k < l.length →
    cstr (l.set k 0) = (cstr l).take k
  | [], _, _, h => by simp at h
  | c :: cs, 0, _, _ => by simp [cstr_cons_zero]
  | c :: cs, k + 1, h1, h2 => by
    have hc : c ≠ 0 := by
      intro h0; subst h0; simp [cstr_cons_zero] at h1
    rw [cstr_cons_ne _ _ hc] at h1
    simp only [List.set_cons_succ, cstr_cons_ne _ _ hc, List.length_cons, List.take_succ_cons]
      at h1 h2 ⊢
    rw [cstr_set_zero_eq cs k (by omega) (by omega)]

theorem cstr_drop_eq : ∀ (l : List Nat) (k : Nat), k ≤ (cstr l).length →
    cstr (l.drop k) = (cstr l).drop k
  | _, 0, _ => by simp
  | [], k + 1, h => by simp [cstr] at h
  | c :: cs, k + 1, h => by
    have hc : c ≠ 0 := by
      intro h0; subst h0; simp [cstr_cons_zero] at h
    rw [cstr_cons_ne _ _ hc] at h ⊢
    simp only [List.drop_succ_cons, List.length_cons] at h ⊢
    rw [cstr_drop_eq cs k (by omega)]

theorem cleaned_text_prefix (text : List Nat) :
    ∃ w, text.map nl_to_space = cleaned_text text ++ w := by
  obtain ⟨w, hw⟩ := List.rdropWhile_prefix isspace (l := text.map nl_to_space)
  exact ⟨w, hw.symm⟩

theorem nl_to_space_ne_zero (c : Nat) (h : c ≠ 0) : nl_to_space c ≠ 0 := by
  unfold nl_to_space
  split <;> omega

theorem nl_to_space_isspace (c : Nat) : isspace (nl_to_space c) = isspace c := by
  unfold nl_to_space
  split
  · rename_i h; subst h; rfl
  · rfl

theorem log_add_clean_eq (text rest : List Nat) (h0 : ∀ c ∈ text, c ≠ 0)
    (hns : ∃ c ∈ text, isspace c = false) :
    log_add_clean (text ++ 0 :: rest) (text.length + 1) =
      some ((text.map nl_to_space ++ 0 :: rest).set (cleaned_text text).length 0,
            (cleaned_text text).length + 1) := by
  have hns' : ∃ c ∈ text.map nl_to_space, isspace c = false := by
    obtain ⟨c, hc, hcs⟩ := hns
    exact ⟨nl_to_space c, List.mem_map_of_mem _ hc, by rw [nl_to_space_isspace, hcs]⟩
  have ht := trim_size_append (text.map nl_to_space) (0 :: rest) hns'
  rw [List.length_map] at ht
  simp only [log_add_clean, replace_newlines_append text rest h0, ht, cleaned_text,
    Nat.add_sub_cancel]

theorem cstr_log_add_clean (text rest : List Nat) (h0 : ∀ c ∈ text, c ≠ 0) :
    cstr ((text.map nl_to_space ++ 0 :: rest).set (cleaned_text text).length 0) =
      cleaned_text text := by
  obtain ⟨w, hw⟩ := cleaned_text_prefix text
  have hm : ∀ c ∈ text.map nl_to_space, c ≠ 0 := by
    intro c hc
    obtain ⟨x, hx, rfl⟩ := List.mem_map.1 hc
    exact nl_to_space_ne_zero x (h0 x hx)
  have hc := cstr_append_zero (text.map nl_to_space) rest hm
  have hlen : (cleaned_text text).length ≤ (text.map nl_to_space).length := by
    rw [hw]; simp
  rw [List.length_map] at hlen
  rw [cstr_set_zero_eq _ _ (by rw [hc, List.length_map]; exact hlen) (by simp; omega), hc, hw]
  simp

theorem rdropWhile_ends (p : Nat → Bool) (l q : List Nat) (c : Nat)
    (h : l.rdropWhile p = q ++ [c]) : p c = false := by
  have hid := List.rdropWhile_idempotent p l
  rw [h, List.rdropWhile_concat] at hid
  by_contra hc
  simp only [Bool.not_eq_false] at hc
  rw [if_pos hc] at hid
  have hlen := (List.rdropWhile_prefix p (l := q)).length_le
  rw [hid] at hlen
  simp at hlen

theorem log_add_prio_cstr (b2 : List Nat) (size1 : Nat) (hsz : size1 = (cstr b2).length + 1) :
    ∃ k, cstr (log_add_prio b2 size1).2.1 = (cstr b2).drop k ∧
      (log_add_prio b2 size1).2.2 = (cstr (log_add_prio b2 size1).2.1).length + 1 ∧
      (log_add_prio b2 size1).2.2 ≤ size1 := by
  unfold log_add_prio
  cases hm : match_prio b2 with
  | none => exact ⟨0, by simp, by simpa using hsz, by simp⟩
  | some so =>
    have hso := match_prio_le _ _ hm
    refine ⟨so, cstr_drop_eq _ _ hso, ?_, by simp⟩
    simp only [cstr_drop_eq _ _ hso, List.length_drop]
    omega

theorem log_add_strip_cstr (source : Nat) (b : List Nat) (sz : Nat)
    (hsz : sz = (cstr b).length + 1) :
    ∃ k, cstr (log_add_strip source b sz).1 = (cstr b).drop k ∧
      (log_add_strip source b sz).2 = (cstr (log_add_strip source b sz).1).length + 1 ∧
      (log_add_strip source b sz).2 ≤ sz := by
  unfold log_add_strip
  split
  · rename_i h
    simp only [SYSLOG_PADDING] at h ⊢
    refine ⟨16, cstr_drop_eq _ _ (by omega), ?_, by simp⟩
    simp only [cstr_drop_eq b 16 (by omega), List.length_drop]
    omega
  · exact ⟨0, by simp, by simpa using hsz, by simp⟩

theorem log_add_parse_cstr (buf : List Nat) (size source : Nat) (b2 : List Nat) (size1 : Nat)
    (hclean : log_add_clean buf size = some (b2, size1))
    (hsz : size1 = (cstr b2).length + 1) :
    ∃ p b sz k, log_add_parse buf size source = some (p, b, sz) ∧
      cstr b = (cstr b2).drop k ∧ sz = (cstr b).length + 1 ∧ sz ≤ size1 := by
  obtain ⟨k1, h1, h2, h3⟩ := log_add_prio_cstr b2 size1 hsz
  obtain ⟨k2, h4, h5, h6⟩ := log_add_strip_cstr source _ _ h2
  refine ⟨(log_add_prio b2 size1).1,
    (log_add_strip source (log_add_prio b2 size1).2.1 (log_add_prio b2 size1).2.2).1,
    (log_add_strip source (log_add_prio b2 size1).2.1 (log_add_prio b2 size1).2.2).2,
    k1 + k2, ?_, ?_, h5, by omega⟩
  · rw [log_add_parse_stages, hclean]
    rfl
  · rw [h4, h1, List.drop_drop]

theorem evict_linear_some : ∀ (fuel : Nat) (s s' : LogState) (next : Nat),
    evict_linear fuel s next = some s' → ∃ o, s' = { s with oldest := o }
  | 0, _, _, _, h => by simp [evict_linear] at h
  | f + 1, s, s', next, h => by
    simp only [evict_linear] at h
    split at h
    · obtain ⟨o, ho⟩ := evict_linear_some f _ s' next h
      exact ⟨o, ho⟩
    · exact ⟨s.oldest, by simpa using h.symm⟩

theorem log_add_insert_mem (fuel priority : Nat) (buf : List Nat) (size source : Nat)
    (ts : Nat × Nat) (s s' : LogState) (q : Nat)
    (h : log_add_insert fuel priority buf size source ts s = some (s', q)) :
    ∃ m id, s'.mem = write_record m q size id priority source ts buf := by
  simp only [log_add_insert] at h
  split at h
  · simp only [Option.map_map, Option.map_eq_some', Function.comp] at h
    obtain ⟨s1, hs1, heq⟩ := h
    obtain ⟨o, rfl⟩ := evict_linear_some _ _ _ _ hs1
    simp only [Prod.mk.injEq] at heq
    obtain ⟨rfl, rfl⟩ := heq
    exact ⟨_, _, rfl⟩
  · simp only [Option.map_map, Option.map_eq_some', Function.comp] at h
    obtain ⟨s2, hs2, heq⟩ := h
    obtain ⟨o, rfl⟩ := evict_wrap_some _ _ _ _ hs2
    simp only [Prod.mk.injEq] at heq
    obtain ⟨rfl, rfl⟩ := heq
    exact ⟨_, _, rfl⟩

theorem rd32_write_record_priority (m : Mem) (p size id priority source : Nat) (ts : Nat × Nat)
    (buf : List Nat) :
    rd32 (write_record m p size id priority source ts buf) (p + OFF_PRIORITY)
      = priority % 4294967296 := by
  simp only [write_record, strcpy, HDR, OFF_SIZE, OFF_ID, OFF_PRIORITY, OFF_SOURCE, OFF_TS]
  rw [rd32_wrBytes_other _ _ _ _ (by omega), rd32_wr64_other _ _ _ _ (by omega),
    rd32_wr64_other _ _ _ _ (by omega), rd32_wr32_other _ _ _ _ (by omega), rd32_wr32_same]

theorem rdBytes_write_record_data (m : Mem) (p size id priority source : Nat) (ts : Nat × Nat)
    (buf : List Nat) (hsize : size = (cstr buf).length + 1) :
    rdBytes (write_record m p size id priority source ts buf) (p + HDR) size
      = cstr buf ++ [0] := by
  have hlen : (cstr buf ++ [0]).length = size := by simp [hsize]
  simp only [write_record, strcpy]
  rw [← hlen]
  exact rdBytes_wrBytes _ _ _

theorem log_add_retained (fuel : Nat) (buf : List Nat) (size source : Nat) (ts : Nat × Nat)
    (s : LogState) (p : Nat) (b : List Nat) (sz : Nat) (hlog : s.log ≠ 0)
    (hp : log_add_parse buf size source = some (p, b, sz))
    (hdbg : p &&& LOG_FACMASK ≠ LOG_LOCAL7) :
    log_add fuel buf size source ts s = log_add_insert fuel p b sz source ts s := by
  simp only [log_add, hp]
  rw [if_neg hlog, if_neg hdbg]

theorem cstr_ne_zero (l : List Nat) : ∀ c ∈ cstr l, c ≠ 0 := by
  intro c hc
  have := List.mem_takeWhile_imp hc
  simpa using this

theorem isdigit_ne_zero (c : Nat) (h : isdigit c = true) : c ≠ 0 := by
  simp only [isdigit, Bool.and_eq_true, decide_eq_true_eq] at h
  omega

theorem isdigit_not_space (c : Nat) (h : isdigit c = true) : isspace c = false := by
  simp only [isdigit, Bool.and_eq_true, decide_eq_true_eq] at h
  simp only [isspace, Bool.or_eq_false_iff, beq_eq_false_iff_ne]
  omega

theorem takeWhile_isdigit_run (d t : List Nat) (hd : ∀ c ∈ d, isdigit c = true) :
    (d ++ 62 :: t).takeWhile isdigit = d := by
  rw [List.takeWhile_append_of_pos hd]
  simp [List.takeWhile, isdigit]

theorem rdropWhile_of_last (p : Nat → Bool) (q : List Nat) (c : Nat) (h : p c = false) :
    (q ++ [c]).rdropWhile p = q ++ [c] := by
  rw [List.rdropWhile_concat]
  simp [h]

/-- The line `<` digits `>` text, without its NUL: nothing to replace or trim. -/
theorem prio_line_clean (d t : List Nat) (hdig : ∀ c ∈ d, isdigit c = true)
    (ht : ∀ c ∈ t, c ≠ 0 ∧ c ≠ 10) (hlast : ∀ pre c, t = pre ++ [c] → isspace c = false) :
    (∀ c ∈ 60 :: (d ++ 62 :: t), c ≠ 0) ∧ cleaned_text (60 :: (d ++ 62 :: t)) = 60 :: (d ++ 62 :: t) := by
  have hne : ∀ c ∈ 60 :: (d ++ 62 :: t), c ≠ 0 ∧ c ≠ 10 := by
    intro c hc
    simp only [List.mem_cons, List.mem_append] at hc
    rcases hc with rfl | hc | rfl | hc
    · omega
    · have := hdig c hc
      simp only [isdigit, Bool.and_eq_true, decide_eq_true_eq] at this
      omega
    · omega
    · exact ht c hc
  refine ⟨fun c hc => (hne c hc).1, ?_⟩
  have hmap : (60 :: (d ++ 62 :: t)).map nl_to_space = 60 :: (d ++ 62 :: t) := by
    conv_rhs => rw [← List.map_id (60 :: (d ++ 62 :: t))]
    apply List.map_congr_left
    intro c hc
    simp only [nl_to_space, id, if_neg (hne c hc).2]
  unfold cleaned_text
  rw [hmap]
  rcases List.eq_nil_or_concat t with rfl | ⟨pre, c, h⟩
  · have : 60 :: (d ++ [62]) = (60 :: d) ++ [62] := by simp
    rw [this]
    exact rdropWhile_of_last _ _ _ (by decide)
  · rw [List.concat_eq_append] at h
    subst h
    have : 60 :: (d ++ 62 :: (pre ++ [c])) = (60 :: (d ++ 62 :: pre)) ++ [c] := by simp
    rw [this]
    exact rdropWhile_of_last _ _ _ (hlast pre c rfl)

theorem set_append_zero (l rest : List Nat) : (l ++ 0 :: rest).set l.length 0 = l ++ 0 :: rest := by
  induction l with
  | nil => rfl
  | cons c l ih => simp only [List.cons_append, List.length_cons, List.set_cons_succ, ih]

theorem match_prio_line (d t rest : List Nat) (hdig : ∀ c ∈ d, isdigit c = true)
    (ht : ∀ c ∈ t, c ≠ 0) :
    match_prio (60 :: (d ++ 62 :: t) ++ 0 :: rest) = some (d.length + 2) := by
  have hne : ∀ c ∈ 60 :: (d ++ 62 :: t), c ≠ 0 := by
    intro c hc
    simp only [List.mem_cons, List.mem_append] at hc
    rcases hc with rfl | hc | rfl | hc
    · omega
    · exact isdigit_ne_zero c (hdig c hc)
    · omega
    · exact ht c hc
  unfold match_prio
  rw [cstr_append_zero _ rest hne]
  simp only [if_true, takeWhile_isdigit_run d t hdig, List.drop_left]

theorem evict_wrap_cycle (s : LogState) (next : Nat) (P : Nat → Prop)
    (hP : ∀ o, P o → o ≤ next ∧ P (log_next s o (to_int (rd32 s.mem (o + OFF_SIZE))))) :
    ∀ (fuel o : Nat), P o → evict_wrap fuel { s with oldest := o } next = none
  | 0, _, _ => rfl
  | f + 1, o, ho => by
    simp only [evict_wrap]
    rw [if_pos (hP o ho).1]
    exact evict_wrap_cycle s next P hP f _ (hP o ho).2

theorem PAD_mod (x : Nat) : PAD x % 4 = 0 := by
  unfold PAD
  split <;> omega

theorem log_add_insert_cases (fuel priority : Nat) (buf : List Nat) (size source : Nat)
    (ts : Nat × Nat) (s s' : LogState) (q : Nat)
    (h : log_add_insert fuel priority buf size source ts s = some (s', q)) :
    (log_next s s.newest size > s.newest ∧ q = s.newest ∧
      s'.newest = log_next s s.newest size ∧ s'.log = s.log ∧ s'.log_end = s.log_end ∧
      s'.mem = write_record s.mem s.newest size s.current_id priority source ts buf) ∨
    (¬ log_next s s.newest size > s.newest ∧ q = s.log ∧
      s'.newest = log_next s s.log size ∧ s'.log = s.log ∧ s'.log_end = s.log_end ∧
      s'.mem = write_record (wr32 s.mem (s.newest + OFF_SIZE) 0) s.log size s.current_id
        priority source ts buf) := by
  simp only [log_add_insert] at h
  split at h
  · rename_i hgt
    simp only [Option.map_map, Option.map_eq_some', Function.comp] at h
    obtain ⟨s1, hs1, heq⟩ := h
    obtain ⟨o, rfl⟩ := evict_linear_some _ _ _ _ hs1
    simp only [Prod.mk.injEq] at heq
    obtain ⟨rfl, rfl⟩ := heq
    exact Or.inl ⟨hgt, rfl, rfl, rfl, rfl, rfl⟩
  · rename_i hgt
    simp only [Option.map_map, Option.map_eq_some', Function.comp] at h
    obtain ⟨s2, hs2, heq⟩ := h
    obtain ⟨o, rfl⟩ := evict_wrap_some _ _ _ _ hs2
    simp only [Prod.mk.injEq] at heq
    obtain ⟨rfl, rfl⟩ := heq
    exact Or.inr ⟨hgt, rfl, rfl, rfl, rfl, rfl⟩

theorem log_add_insert_placed (fuel priority : Nat) (buf : List Nat) (size source : Nat)
    (ts : Nat × Nat) (base C : Nat) (s s' : LogState) (q : Nat) (h4 : C % 4 = 0)
    (hpl : Placed base C s)
    (h : log_add_insert fuel priority buf size source ts s = some (s', q)) :
    Placed base C s' := by
  have hlog := hpl.log_eq
  have hend := hpl.log_end_eq
  have h1 := hpl.newest_ge
  have h2 := hpl.newest_lt
  have h3 := hpl.aligned
  have hpad := PAD_mod size
  rcases log_add_insert_cases _ _ _ _ _ _ _ _ _ h with
    ⟨hgt, _, hn, hl, he, _⟩ | ⟨_, _, hn, hl, he, _⟩
  · simp only [log_next_ofNat, hend, hlog, HDR] at hgt hn
    split at hn
    · rw [if_pos (by assumption)] at hgt
      omega
    · exact ⟨by rw [hl, hlog], by rw [he, hend], by omega, by omega, by omega⟩
  · simp only [log_next_ofNat, hend, hlog, HDR] at hn
    split at hn
    · exact ⟨by rw [hl, hlog], by rw [he, hend], by omega, by omega, by omega⟩
    · exact ⟨by rw [hl, hlog], by rw [he, hend], by omega, by omega, by omega⟩

theorem log_add_placed (fuel : Nat) (buf : List Nat) (size source : Nat) (ts : Nat × Nat)
    (base C : Nat) (s s' : LogState) (q : Nat) (h4 : C % 4 = 0) (hpl : Placed base C s)
    (h : log_add fuel buf size source ts s = some (s', q)) : Placed base C s' := by
  simp only [log_add] at h
  split at h
  · simp only [Option.some.injEq, Prod.mk.injEq] at h
    rw [← h.1]; exact hpl
  · split at h
    · simp at h
    · split at h
      · simp only [Option.some.injEq, Prod.mk.injEq] at h
        rw [← h.1]; exact hpl
      · exact log_add_insert_placed _ _ _ _ _ _ _ _ _ _ _ h4 hpl h

theorem run_calls_placed (fuel base C : Nat) (h4 : C % 4 = 0) :
    ∀ (cs : List Call) (s s' : LogState), Placed base C s → run_calls fuel cs s = some s' →
      Placed base C s'
  | [], s, s', hpl, h => by
    simp only [run_calls, Option.some.injEq] at h
    rw [← h]; exact hpl
  | c :: cs, s, s', hpl, h => by
    simp only [run_calls] at h
    split at h
    · simp at h
    · rename_i s1 q hs1
      exact run_calls_placed fuel base C h4 cs s1 s'
        (log_add_placed _ _ _ _ _ _ _ _ _ _ h4 hpl hs1) h

theorem boot_run_placed (fuel : Nat) (m : Mem) (base C : Nat) (cs : List Call) (s : LogState)
    (hC : 0 < C) (h4 : C % 4 = 0) (h : boot_run fuel m base C cs = some s) :
    Placed base C s := by
  simp only [boot_run, log_buffer_init_boot] at h
  exact run_calls_placed fuel base C h4 cs _ s
    ⟨rfl, rfl, Nat.le_refl _, by simp only [fresh]; omega, by simp [fresh]⟩ h

theorem log_add_insert_frame (fuel priority : Nat) (buf : List Nat) (size source : Nat)
    (ts : Nat × Nat) (base C : Nat) (s s' : LogState) (q : Nat) (h4 : C % 4 = 0)
    (hpl : Placed base C s) (hsize : size = (cstr buf).length + 1)
    (hfp : HDR + PAD size ≤ C)
    (h : log_add_insert fuel priority buf size source ts s = some (s', q)) :
    ∀ x, x < base ∨ base + C ≤ x → s'.mem x = s.mem x := by
  have hlog := hpl.log_eq
  have hend := hpl.log_end_eq
  have h1 := hpl.newest_ge
  have h2 := hpl.newest_lt
  have h3 := hpl.aligned
  have hpad := le_PAD size
  intro x hx
  rcases log_add_insert_cases _ _ _ _ _ _ _ _ _ h with
    ⟨hgt, _, _, _, _, hm⟩ | ⟨_, _, _, _, _, hm⟩
  · simp only [log_next_ofNat, hend, hlog, HDR] at hgt
    split at hgt
    · omega
    · rw [hm, write_record_frame _ _ _ _ _ _ _ _ _ (by simp only [HDR]; omega)]
  · simp only [HDR] at hfp
    rw [hm, write_record_frame _ _ _ _ _ _ _ _ _ (by simp only [HDR, hlog]; omega),
      wr32_frame _ _ _ _ (by simp only [OFF_SIZE]; omega)]

theorem log_add_insert_inside (fuel priority : Nat) (buf : List Nat) (size source : Nat)
    (ts : Nat × Nat) (base C : Nat) (s s' : LogState) (q : Nat)
    (hpl : Placed base C s) (hfp : HDR + PAD size ≤ C)
    (h : log_add_insert fuel priority buf size source ts s = some (s', q)) :
    base ≤ q ∧ q + HDR + size ≤ base + C ∧
    (s'.mem = write_record s.mem q size s.current_id priority source ts buf ∨
      s'.mem = write_record (wr32 s.mem (s.newest + OFF_SIZE) 0) q size s.current_id priority
        source ts buf) := by
  have hlog := hpl.log_eq
  have hend := hpl.log_end_eq
  have h1 := hpl.newest_ge
  have h2 := hpl.newest_lt
  have hpad := le_PAD size
  rcases log_add_insert_cases _ _ _ _ _ _ _ _ _ h with
    ⟨hgt, hq, _, _, _, hm⟩ | ⟨_, hq, _, _, _, hm⟩
  · simp only [log_next_ofNat, hend, hlog, HDR] at hgt
    split at hgt
    · omega
    · subst hq
      exact ⟨h1, by simp only [HDR]; omega, Or.inl hm⟩
  · rw [hlog] at hq
    subst hq
    simp only [HDR] at hfp
    exact ⟨Nat.le_refl _, by simp only [HDR]; omega, Or.inr (by rw [hm, hlog])⟩

theorem chain_record_eq (m m' : Mem) : ∀ (rs : List Record) (a b : Nat), Chain m a rs b →
    Chain m' a rs b → ∀ x ∈ addrs a rs, record_at m' x = record_at m x
  | [], _, _, _, _, x, hx => by simp [addrs] at hx
  | r :: rs, a, b, h, h', x, hx => by
    simp only [Chain] at h h'
    simp only [addrs, List.mem_cons] at hx
    rcases hx with rfl | hx
    · rw [h.1, h'.1]
    · exact chain_record_eq m m' rs _ b h.2 h'.2 x hx

theorem lt_of_mem_addrs_chain (m : Mem) : ∀ (rs : List Record) (a b : Nat), Chain m a rs b →
    ∀ x ∈ addrs a rs, x < b
  | [], _, _, _, x, hx => by simp [addrs] at hx
  | r :: rs, a, b, h, x, hx => by
    simp only [Chain] at h
    simp only [addrs, List.mem_cons] at hx
    have hle := chain_le _ _ _ _ h.2
    rcases hx with rfl | hx
    · simp only [HDR] at hle; omega
    · exact lt_of_mem_addrs_chain m rs _ b h.2 x hx

theorem addrs_snoc (m : Mem) (r : Record) : ∀ (rs : List Record) (a b : Nat), Chain m a rs b →
    addrs a (rs ++ [r]) = addrs a rs ++ [b]
  | [], a, b, h => by
    simp only [Chain] at h
    subst h
    rfl
  | r' :: rs, a, b, h => by
    simp only [Chain] at h
    show a :: addrs (a + HDR + PAD r'.size) (rs ++ [r]) = a :: (addrs _ rs ++ [b])
    rw [addrs_snoc m r rs _ b h.2]

theorem log_add_insert_wrap (fuel priority : Nat) (buf : List Nat) (size source : Nat)
    (ts : Nat × Nat) (s : LogState) (o : Nat)
    (hgt : ¬ log_next s s.newest size > s.newest)
    (hev : evict_wrap fuel
      { s with mem := wr32 s.mem (s.newest + OFF_SIZE) 0, oldest := s.log }
      (log_next s s.log size) =
        some { s with mem := wr32 s.mem (s.newest + OFF_SIZE) 0, oldest := o }) :
    log_add_insert fuel priority buf size source ts s =
      some ({ s with mem := write_record (wr32 s.mem (s.newest + OFF_SIZE) 0) s.log size
                        s.current_id priority source ts buf,
                     oldest := o, current_id := s.current_id + 1,
                     newest := log_next s s.log size }, s.log) := by
  simp only [log_add_insert]
  rw [if_neg hgt]
  have hev' : evict_wrap fuel
      { mem := wr32 s.mem (s.newest + OFF_SIZE) 0, log := s.log, log_end := s.log_end,
        oldest := s.log, newest := s.newest, log_size := s.log_size,
        current_id := s.current_id }
      (log_next { s with mem := wr32 s.mem (s.newest + OFF_SIZE) 0 } s.log size) = _ := hev
  simp only [hev']
  rfl

/-! ## The layout of a store that has wrapped -/

theorem survivors_spec (m : Mem) (next : Nat) : ∀ (rs : List Record) (a b : Nat), Chain m a rs b →
    ∃ pre, rs = pre ++ (survivors next a rs).2 ∧
      Chain m (survivors next a rs).1 (survivors next a rs).2 b ∧
      addrs a rs = addrs a pre ++ addrs (survivors next a rs).1 (survivors next a rs).2 ∧
      (∀ x ∈ addrs a pre, x ≤ next) ∧
      ((survivors next a rs).2 ≠ [] → next < (survivors next a rs).1) ∧
      ((survivors next a rs).2 = [] → (survivors next a rs).1 = b)
  | [], a, b, h => by
    simp only [Chain] at h
    exact ⟨[], rfl, by simp only [survivors, Chain]; exact h, by simp [survivors, addrs],
      by simp [addrs], by simp [survivors], fun _ => h⟩
  | r :: rs, a, b, h => by
    by_cases ha : a ≤ next
    · have e : survivors next a (r :: rs) = survivors next (a + HDR + PAD r.size) rs := by
        simp only [survivors, if_pos ha]
      rw [e]
      simp only [Chain] at h
      obtain ⟨pre, h1, h2, h3, h4, h5, h6⟩ := survivors_spec m next rs _ b h.2
      refine ⟨r :: pre, by rw [List.cons_append, ← h1], h2, ?_, ?_, h5, h6⟩
      · simp only [addrs, List.cons_append]
        rw [← h3]
      · intro x hx
        simp only [addrs, List.mem_cons] at hx
        rcases hx with rfl | hx
        · exact ha
        · exact h4 x hx
    · have e : survivors next a (r :: rs) = (a, r :: rs) := by
        simp only [survivors, if_neg ha]
      rw [e]
      exact ⟨[], rfl, h, by simp [addrs], by simp [addrs], fun _ => by omega, by simp⟩

theorem survivors_lt (next : Nat) (rs : List Record) (a : Nat)
    (h : (survivors next a rs).2 ≠ []) :
    ∀ x ∈ addrs (survivors next a rs).1 (survivors next a rs).2, next < x := by
  induction rs generalizing a with
  | nil => simp [survivors] at h
  | cons r rs ih =>
    by_cases ha : a ≤ next
    · have e : survivors next a (r :: rs) = survivors next (a + HDR + PAD r.size) rs := by
        simp only [survivors, if_pos ha]
      rw [e] at h ⊢
      exact ih _ h
    · have e : survivors next a (r :: rs) = (a, r :: rs) := by
        simp only [survivors, if_neg ha]
      rw [e]
      intro x hx
      have := le_of_mem_addrs _ _ _ hx
      omega

theorem survivors_sublist (next : Nat) : ∀ (rs : List Record) (a : Nat),
    ∀ r ∈ (survivors next a rs).2, r ∈ rs
  | [], _, r, h => by simp [survivors] at h
  | r0 :: rs, a, r, h => by
    by_cases ha : a ≤ next
    · have e : survivors next a (r0 :: rs) = survivors next (a + HDR + PAD r0.size) rs := by
        simp only [survivors, if_pos ha]
      rw [e] at h
      exact List.mem_cons_of_mem _ (survivors_sublist next rs _ r h)
    · have e : survivors next a (r0 :: rs) = (a, r0 :: rs) := by
        simp only [survivors, if_neg ha]
      rw [e] at h
      exact h

theorem survivors_length (next : Nat) : ∀ (rs : List Record) (a : Nat),
    (survivors next a rs).2.length ≤ rs.length
  | [], _ => by simp [survivors]
  | r0 :: rs, a => by
    by_cases ha : a ≤ next
    · have e : survivors next a (r0 :: rs) = survivors next (a + HDR + PAD r0.size) rs := by
        simp only [survivors, if_pos ha]
      rw [e]
      have := survivors_length next rs (a + HDR + PAD r0.size)
      simp only [List.length_cons]
      omega
    · have e : survivors next a (r0 :: rs) = (a, r0 :: rs) := by
        simp only [survivors, if_neg ha]
      rw [e]

theorem evict_wrap_survivors (t : LogState) (next p : Nat) (hp : p < t.log_end) :
    ∀ (rs : List Record) (a fuel : Nat), Chain t.mem a rs p →
      (∀ r ∈ rs, r.size < 2147483648) → (survivors next a rs).2 ≠ [] → rs.length ≤ fuel →
      evict_wrap fuel { t with oldest := a } next =
        some { t with oldest := (survivors next a rs).1 }
  | [], _, _, _, _, hs, _ => by simp [survivors] at hs
  | r :: rs, a, fuel, hch, hlt, hs, hfuel => by
    obtain ⟨f, rfl⟩ : ∃ f, fuel = f + 1 := ⟨fuel - 1, by simp at hfuel; omega⟩
    by_cases ha : a ≤ next
    · have e : survivors next a (r :: rs) = survivors next (a + HDR + PAD r.size) rs := by
        simp only [survivors, if_pos ha]
      rw [e] at hs ⊢
      simp only [Chain] at hch
      obtain ⟨h1, h2⟩ := hch
      have hsz : rd32 t.mem (a + OFF_SIZE) = r.size := by rw [← h1]; rfl
      have hle := chain_le _ _ _ _ h2
      have hn : log_next { t with oldest := a } a (to_int (rd32 t.mem (a + OFF_SIZE)))
          = a + HDR + PAD r.size := by
        rw [hsz, log_next_field _ _ _ (hlt r (List.mem_cons_self _ _))]
        exact if_neg (by show ¬ (a + HDR + PAD r.size ≥ t.log_end); omega)
      have ih := evict_wrap_survivors t next p hp rs (a + HDR + PAD r.size) f h2
        (fun x hx => hlt x (List.mem_cons_of_mem _ hx)) hs (by simp at hfuel; omega)
      simp only [evict_wrap]
      rw [if_pos ha]
      simp only [hn]
      exact ih
    · have e : survivors next a (r :: rs) = (a, r :: rs) := by
        simp only [survivors, if_neg ha]
      rw [e]
      simp only [evict_wrap]
      rw [if_neg ha]

theorem evict_linear_survivors (t : LogState) (next p : Nat) (hp : p < t.log_end)
    (hlog : t.log ≤ t.newest) :
    ∀ (rs : List Record) (a fuel : Nat), Chain t.mem a rs p →
      (∀ r ∈ rs, r.size < 2147483648) → t.newest < a → (survivors next a rs).2 ≠ [] →
      rs.length ≤ fuel →
      evict_linear fuel { t with oldest := a } next =
        some { t with oldest := (survivors next a rs).1 }
  | [], _, _, _, _, _, hs, _ => by simp [survivors] at hs
  | r :: rs, a, fuel, hch, hlt, hna, hs, hfuel => by
    obtain ⟨f, rfl⟩ : ∃ f, fuel = f + 1 := ⟨fuel - 1, by simp at hfuel; omega⟩
    by_cases ha : a ≤ next
    · have e : survivors next a (r :: rs) = survivors next (a + HDR + PAD r.size) rs := by
        simp only [survivors, if_pos ha]
      rw [e] at hs ⊢
      simp only [Chain] at hch
      obtain ⟨h1, h2⟩ := hch
      have hsz : rd32 t.mem (a + OFF_SIZE) = r.size := by rw [← h1]; rfl
      have hle := chain_le _ _ _ _ h2
      have hn : log_next { t with oldest := a } a (to_int (rd32 t.mem (a + OFF_SIZE)))
          = a + HDR + PAD r.size := by
        rw [hsz, log_next_field _ _ _ (hlt r (List.mem_cons_self _ _))]
        exact if_neg (by show ¬ (a + HDR + PAD r.size ≥ t.log_end); omega)
      have ih := evict_linear_survivors t next p hp hlog rs (a + HDR + PAD r.size) f h2
        (fun x hx => hlt x (List.mem_cons_of_mem _ hx)) (by simp only [HDR]; omega) hs
        (by simp at hfuel; omega)
      simp only [evict_linear]
      rw [if_pos ⟨hna, ha, by omega⟩]
      simp only [hn]
      exact ih
    · have e : survivors next a (r :: rs) = (a, r :: rs) := by
        simp only [survivors, if_neg ha]
      rw [e]
      simp only [evict_linear]
      rw [if_neg (fun h => ha h.2.1)]

theorem evict_linear_all (t : LogState) (next p : Nat) (hp : p < t.log_end)
    (hlog : t.log ≤ t.newest)
    (hsent : rd32 t.mem (p + OFF_SIZE) = 0) (hpn : p ≤ next) (hlast : t.log_end ≤ p + HDR) :
    ∀ (rs : List Record) (a fuel : Nat), Chain t.mem a rs p →
      (∀ r ∈ rs, r.size < 2147483648) → t.newest < a → (survivors next a rs).2 = [] →
      rs.length + 2 ≤ fuel →
      evict_linear fuel { t with oldest := a } next = some { t with oldest := t.log }
  | [], a, fuel, hch, _, hna, _, hfuel => by
    obtain ⟨f, rfl⟩ : ∃ f, fuel = f + 2 := ⟨fuel - 2, by simp at hfuel; omega⟩
    simp only [Chain] at hch
    subst hch
    have hn : log_next { t with oldest := a } a (to_int (rd32 t.mem (a + OFF_SIZE))) = t.log := by
      rw [hsent, log_next_field _ _ _ (by omega)]
      exact if_pos (by show a + HDR + PAD 0 ≥ t.log_end; simp only [PAD]; omega)
    simp only [evict_linear]
    rw [if_pos ⟨hna, hpn, by omega⟩]
    simp only [hn]
    rw [if_neg (by omega)]
  | r :: rs, a, fuel, hch, hlt, hna, hs, hfuel => by
    obtain ⟨f, rfl⟩ : ∃ f, fuel = f + 1 := ⟨fuel - 1, by simp at hfuel; omega⟩
    by_cases ha : a ≤ next
    · have e : survivors next a (r :: rs) = survivors next (a + HDR + PAD r.size) rs := by
        simp only [survivors, if_pos ha]
      rw [e] at hs
      simp only [Chain] at hch
      obtain ⟨h1, h2⟩ := hch
      have hsz : rd32 t.mem (a + OFF_SIZE) = r.size := by rw [← h1]; rfl
      have hle := chain_le _ _ _ _ h2
      have hn : log_next { t with oldest := a } a (to_int (rd32 t.mem (a + OFF_SIZE)))
          = a + HDR + PAD r.size := by
        rw [hsz, log_next_field _ _ _ (hlt r (List.mem_cons_self _ _))]
        exact if_neg (by show ¬ (a + HDR + PAD r.size ≥ t.log_end); simp only [HDR] at *; omega)
      have ih := evict_linear_all t next p hp hlog hsent hpn hlast rs (a + HDR + PAD r.size) f h2
        (fun x hx => hlt x (List.mem_cons_of_mem _ hx)) (by simp only [HDR]; omega) hs
        (by simp at hfuel; omega)
      simp only [evict_linear]
      rw [if_pos ⟨hna, ha, by omega⟩]
      simp only [hn]
      exact ih
    · have e : survivors next a (r :: rs) = (a, r :: rs) := by
        simp only [survivors, if_neg ha]
      rw [e] at hs
      simp at hs

theorem layout_add_cases (base C : Nat) (L L' : Layout) (c : Call)
    (h : L.add base C c = some L') :
    (L.newest + c.footprint < base + C ∧ L.up = [] ∧
      L' = { L with lo := L.lo ++ [c.record L.id], newest := L.newest + c.footprint,
                    id := L.id + 1 }) ∨
    (L.newest + c.footprint < base + C ∧ L.up ≠ [] ∧
      (survivors (L.newest + c.footprint) L.oldest L.up).2 ≠ [] ∧
      L' = { L with up := (survivors (L.newest + c.footprint) L.oldest L.up).2,
                    oldest := (survivors (L.newest + c.footprint) L.oldest L.up).1,
                    lo := L.lo ++ [c.record L.id], newest := L.newest + c.footprint,
                    id := L.id + 1 }) ∨
    (L.newest + c.footprint < base + C ∧ L.up ≠ [] ∧
      (survivors (L.newest + c.footprint) L.oldest L.up).2 = [] ∧
      L.e ≤ L.newest + c.footprint ∧ base + C ≤ L.e + HDR ∧
      L' = { L with up := [], oldest := base, lo := L.lo ++ [c.record L.id],
                    newest := L.newest + c.footprint, id := L.id + 1 }) ∨
    (¬ L.newest + c.footprint < base + C ∧ c.footprint < C ∧
      (survivors (base + c.footprint) base L.lo).2 ≠ [] ∧
      L' = { up := (survivors (base + c.footprint) base L.lo).2,
             oldest := (survivors (base + c.footprint) base L.lo).1, e := L.newest,
             lo := [c.record L.id], newest := base + c.footprint, id := L.id + 1 }) := by
  unfold Layout.add at h
  simp only at h
  split at h
  · rename_i hfit
    split at h
    · rename_i hup
      simp only [Option.some.injEq] at h
      exact Or.inl ⟨hfit, hup, h.symm⟩
    · rename_i hup
      split at h
      · rename_i hs
        simp only [Option.some.injEq] at h
        exact Or.inr (Or.inl ⟨hfit, hup, hs, h.symm⟩)
      · rename_i hs
        split at h
        · rename_i hb
          simp only [Option.some.injEq] at h
          exact Or.inr (Or.inr (Or.inl ⟨hfit, hup, by simpa using hs, hb.1, hb.2, h.symm⟩))
        · simp at h
  · rename_i hfit
    split at h
    · rename_i hw
      simp only [Option.some.injEq] at h
      exact Or.inr (Or.inr (Or.inr ⟨hfit, hw.1, hw.2, h.symm⟩))
    · simp at h

theorem log_add_insert_fit (fuel priority : Nat) (buf : List Nat) (size source : Nat)
    (ts : Nat × Nat) (s : LogState) (o : Nat)
    (hfit : s.newest + HDR + PAD size < s.log_end)
    (hev : evict_linear fuel s (s.newest + HDR + PAD size) = some { s with oldest := o }) :
    log_add_insert fuel priority buf size source ts s =
      some ({ s with mem := write_record s.mem s.newest size s.current_id priority source ts buf,
                     oldest := o, current_id := s.current_id + 1,
                     newest := s.newest + HDR + PAD size }, s.newest) := by
  have hn : log_next s s.newest (size : Int) = s.newest + HDR + PAD size := by
    rw [log_next_ofNat, if_neg (by omega)]
  simp only [log_add_insert, hn]
  rw [if_pos (by simp only [HDR]; omega), hev]
  rfl

theorem log_add_insert_over (fuel priority : Nat) (buf : List Nat) (size source : Nat)
    (ts : Nat × Nat) (s : LogState) (o : Nat) (hlog : s.log ≤ s.newest)
    (hfit : ¬ s.newest + HDR + PAD size < s.log_end)
    (hfp : s.log + HDR + PAD size < s.log_end)
    (hev : evict_wrap fuel
      { s with mem := wr32 s.mem (s.newest + OFF_SIZE) 0, oldest := s.log }
      (s.log + HDR + PAD size) =
        some { s with mem := wr32 s.mem (s.newest + OFF_SIZE) 0, oldest := o }) :
    log_add_insert fuel priority buf size source ts s =
      some ({ s with mem := write_record (wr32 s.mem (s.newest + OFF_SIZE) 0) s.log size
                        s.current_id priority source ts buf,
                     oldest := o, current_id := s.current_id + 1,
                     newest := s.log + HDR + PAD size }, s.log) := by
  have hn : log_next s s.newest (size : Int) = s.log := by
    rw [log_next_ofNat, if_pos (by omega)]
  have hn2 : log_next s s.log (size : Int) = s.log + HDR + PAD size := by
    rw [log_next_ofNat, if_neg (by omega)]
  have h := log_add_insert_wrap fuel priority buf size source ts s o (by rw [hn]; omega)
    (by rw [hn2]; exact hev)
  rw [hn2] at h
  exact h

theorem chain_last (m : Mem) (r : Record) : ∀ (rs : List Record) (a q b : Nat),
    Chain m a rs q → Chain m a (rs ++ [r]) b → record_at m q = r
  | [], a, q, b, h1, h2 => by
    simp only [Chain] at h1
    subst h1
    simp only [List.nil_append, Chain] at h2
    exact h2.1
  | r' :: rs, a, q, b, h1, h2 => by
    simp only [Chain, List.cons_append] at h1 h2
    exact chain_last m r rs _ q b h1.2 h2.2

theorem log_add_ring (fuel base C : Nat) (s : LogState) (L L' : Layout) (c : Call)
    (hbase : 0 < base) (hC : C < 2 ^ 31) (hring : Ring base C s L) (hret : c.retained = true)
    (hid : L.id < 4294967296) (hadd : L.add base C c = some L')
    (hfuel : L.up.length + L.lo.length + 2 ≤ fuel) :
    ∃ p b sz, log_add_parse c.buf c.size c.source = some (p, b, sz) ∧ ∃ s',
      log_add fuel c.buf c.size c.source c.ts s =
        some (s', if L.newest + c.footprint < base + C then L.newest else base) ∧
      Ring base C s' L' ∧
      s'.mem = (if L.newest + c.footprint < base + C then
          write_record s.mem L.newest sz L.id p c.source c.ts b
        else write_record (wr32 s.mem (L.newest + OFF_SIZE) 0) base sz L.id p c.source c.ts b) := by
  obtain ⟨p, b, sz, hp, hdbg, hsz, hpr, hsrc, hts1, hts2⟩ := retained_parse c hret
  have hfpe : c.footprint = HDR + PAD sz := by simp only [Call.footprint, hp]
  have hfpx : ∀ x, x + c.footprint = x + HDR + PAD sz := by intro x; rw [hfpe]; omega
  have hrec : c.record L.id = ⟨sz, L.id, p, c.source, c.ts, cstr b ++ [0]⟩ := by
    simp only [Call.record, hp]
  have hrsz : (c.record L.id).size = sz := by rw [hrec]
  have hb := hring.log_eq
  subst hb
  have hend := hring.log_end_eq
  have hold := hring.oldest_eq
  have hnew := hring.newest_eq
  have hcid := hring.id_eq
  have hroom := hring.room
  have hle := chain_le _ _ _ _ hring.low
  have hpad := le_PAD sz
  have hcount := hring.count
  have hrd : sz < 2147483648 → ∀ m q,
      record_at (write_record m q sz L.id p c.source c.ts b) q = c.record L.id := by
    intro hszn m q
    rw [hrec]
    exact record_at_write_record _ _ _ _ _ _ _ _ hsz (by omega) hid (by omega) (by omega)
      (by omega) (by omega)
  have hlogne : s.log ≠ 0 := by omega
  have hlow : sz < 2147483648 → L.newest + HDR + PAD sz < s.log + C → ∀ m,
      (∀ x, x < L.newest → m x = s.mem x) → record_at m L.newest = c.record L.id →
      Chain m s.log (L.lo ++ [c.record L.id]) (L.newest + HDR + PAD sz) := by
    intro _ _ m hm hr
    have h1 := chain_snoc m (c.record L.id) _ _ _
      (chain_congr _ m _ _ _ hring.low fun x _ hx2 => hm x hx2) hr
    rw [hrsz] at h1
    exact h1
  refine ⟨p, b, sz, hp, ?_⟩
  rw [log_add_retained fuel _ _ _ _ s p b sz hlogne hp hdbg]
  simp only [hfpx]
  rcases layout_add_cases _ _ _ _ _ hadd with ⟨hfit, hup, hL'⟩ | ⟨hfit, hup, hs, hL'⟩ |
    ⟨hfit, hup, hs, hen, hlast, hL'⟩ | ⟨hfit, hfp, hs, hL'⟩
  · -- the record is appended, nothing lies above `newest`
    simp only [hfpx] at hfit hL'
    subst hL'
    have hflat := hring.flat hup
    have hszn : sz < 2147483648 := by simp only [HDR] at *; omega
    have hins := log_add_insert_linear fuel p b sz c.source c.ts s (by omega) (by omega)
      (by rw [hend, hnew]; exact hfit)
    rw [hnew, hcid] at hins
    rw [if_pos hfit, if_pos hfit]
    refine ⟨_, hins, ?_, rfl⟩
    refine ⟨rfl, hend, hold, rfl, rfl, hfit, ?_, fun _ => hflat, fun h => absurd hup h, ?_, ?_⟩
    · exact hlow hszn hfit _ (fun x hx => write_record_frame _ _ _ _ _ _ _ _ _ (Or.inl hx))
        (hrd hszn _ _)
    · intro r hr
      simp only [List.mem_append, List.mem_singleton] at hr
      rcases hr with hr | hr | rfl
      · exact hring.sizes r (List.mem_append_left _ hr)
      · exact hring.sizes r (List.mem_append_right _ hr)
      · rw [hrsz]; omega
    · show L.up.length + (L.lo ++ [c.record L.id]).length ≤ L.id + 1
      simp only [List.length_append, List.length_singleton]
      omega
  · -- the records above `newest` that start at or below the end are stepped over
    simp only [hfpx] at hfit hL' hs
    subst hL'
    obtain ⟨hlo, hno, hchu, hsent, he⟩ := hring.upper hup
    have hszn : sz < 2147483648 := by simp only [HDR] at *; omega
    have hlt : ∀ r ∈ L.up, r.size < 2147483648 := fun r hr =>
      (hring.sizes r (List.mem_append_left _ hr)).2
    have hev := evict_linear_survivors s (L.newest + HDR + PAD sz) L.e (by omega) (by omega)
      L.up L.oldest fuel hchu hlt (by omega) hs (by omega)
    have hseq : ({ s with oldest := L.oldest } : LogState) = s := by rw [← hold]
    rw [hseq, ← hnew] at hev
    have hins := log_add_insert_fit fuel p b sz c.source c.ts s _
      (by rw [hend, hnew]; exact hfit) hev
    rw [hnew, hcid] at hins
    rw [if_pos hfit, if_pos hfit]
    refine ⟨_, hins, ?_, rfl⟩
    obtain ⟨pre, s1, s2, s3, s4, s5, s6⟩ := survivors_spec s.mem (L.newest + HDR + PAD sz) L.up
      L.oldest L.e hchu
    have hgt := s5 hs
    have hoe := chain_le _ _ _ _ s2
    refine ⟨rfl, hend, rfl, rfl, rfl, hfit, ?_, fun h => absurd h hs,
      fun _ => ⟨by simp, hgt, ?_, ?_, he⟩, ?_, ?_⟩
    · exact hlow hszn hfit _ (fun x hx => write_record_frame _ _ _ _ _ _ _ _ _ (Or.inl hx))
        (hrd hszn _ _)
    · exact chain_congr _ _ _ _ _ s2 fun x hx1 _ => write_record_frame _ _ _ _ _ _ _ _ _
        (Or.inr (by simp only [HDR] at *; omega))
    · show rd32 (write_record s.mem L.newest sz L.id p c.source c.ts b) (L.e + OFF_SIZE) = 0
      rw [rd32_congr s.mem _ _ (fun x hx1 _ => write_record_frame _ _ _ _ _ _ _ _ _
        (Or.inr (by simp only [HDR, OFF_SIZE] at *; omega)))]
      exact hsent
    · intro r hr
      simp only [List.mem_append, List.mem_singleton] at hr
      rcases hr with hr | hr | rfl
      · exact hring.sizes r (List.mem_append_left _ (survivors_sublist _ _ _ r hr))
      · exact hring.sizes r (List.mem_append_right _ hr)
      · rw [hrsz]; omega
    · show (survivors (L.newest + HDR + PAD sz) L.oldest L.up).2.length +
        (L.lo ++ [c.record L.id]).length ≤ L.id + 1
      have := survivors_length (L.newest + HDR + PAD sz) L.up L.oldest
      simp only [List.length_append, List.length_singleton]
      omega
  · -- every record above `newest` is stepped over and the end mark sends `oldest` to `log`
    simp only [hfpx] at hfit hL' hs hen
    subst hL'
    obtain ⟨hlo, hno, hchu, hsent, he⟩ := hring.upper hup
    have hszn : sz < 2147483648 := by simp only [HDR] at *; omega
    have hlt : ∀ r ∈ L.up, r.size < 2147483648 := fun r hr =>
      (hring.sizes r (List.mem_append_left _ hr)).2
    have hev := evict_linear_all s (L.newest + HDR + PAD sz) L.e (by omega) (by omega) hsent hen
      (by rw [hend]; exact hlast) L.up L.oldest fuel hchu hlt (by omega) hs (by omega)
    have hseq : ({ s with oldest := L.oldest } : LogState) = s := by rw [← hold]
    rw [hseq, ← hnew] at hev
    have hins := log_add_insert_fit fuel p b sz c.source c.ts s _
      (by rw [hend, hnew]; exact hfit) hev
    rw [hnew, hcid] at hins
    rw [if_pos hfit, if_pos hfit]
    refine ⟨_, hins, ?_, rfl⟩
    refine ⟨rfl, hend, rfl, rfl, rfl, hfit, ?_, fun _ => rfl, fun h => absurd rfl h, ?_, ?_⟩
    · exact hlow hszn hfit _ (fun x hx => write_record_frame _ _ _ _ _ _ _ _ _ (Or.inl hx))
        (hrd hszn _ _)
    · intro r hr
      simp only [List.nil_append, List.mem_append, List.mem_singleton] at hr
      rcases hr with hr | rfl
      · exact hring.sizes r (List.mem_append_right _ hr)
      · rw [hrsz]; omega
    · show ([] : List Record).length + (L.lo ++ [c.record L.id]).length ≤ L.id + 1
      simp only [List.length_append, List.length_singleton, List.length_nil]
      omega
  · -- the wrap
    simp only [hfpx] at hfit hL' hs
    subst hL'
    have hszn : sz < 2147483648 := by simp only [HDR] at *; omega
    have hfp' : s.log + HDR + PAD sz < s.log + C := by simp only [HDR] at *; omega
    have hlt : ∀ r ∈ L.lo, r.size < 2147483648 := fun r hr =>
      (hring.sizes r (List.mem_append_right _ hr)).2
    have hcht : Chain (wr32 s.mem (s.newest + OFF_SIZE) 0) s.log L.lo L.newest :=
      chain_congr _ _ _ _ _ hring.low fun x _ hx2 => wr32_frame _ _ _ _
        (Or.inl (by simp only [OFF_SIZE]; omega))
    have hev := evict_wrap_survivors { s with mem := wr32 s.mem (s.newest + OFF_SIZE) 0 }
      (s.log + HDR + PAD sz) L.newest (by show L.newest < s.log_end; omega) L.lo s.log fuel
      hcht hlt hs (by omega)
    have hins := log_add_insert_over fuel p b sz c.source c.ts s _ (by omega)
      (by rw [hend, hnew]; exact hfit) (by rw [hend]; exact hfp') hev
    rw [hnew, hcid] at hins
    rw [if_neg hfit, if_neg hfit]
    refine ⟨_, hins, ?_, rfl⟩
    obtain ⟨pre, s1, s2, s3, s4, s5, s6⟩ := survivors_spec s.mem (s.log + HDR + PAD sz) L.lo
      s.log L.newest hring.low
    have hgt := s5 hs
    have hoe := chain_le _ _ _ _ s2
    refine ⟨rfl, hend, rfl, rfl, rfl, hfp', ?_, fun h => absurd h hs,
      fun _ => ⟨by simp, hgt, ?_, ?_, hroom⟩, ?_, ?_⟩
    · show Chain _ s.log [c.record L.id] (s.log + HDR + PAD sz)
      simp only [Chain]
      refine ⟨hrd hszn _ _, ?_⟩
      rw [hrsz]
    · refine chain_congr _ _ _ _ _ s2 fun x hx1 hx2 => ?_
      have hx1' : (survivors (s.log + HDR + PAD sz) s.log L.lo).1 ≤ x := hx1
      have hx2' : x < L.newest := hx2
      show write_record (wr32 s.mem (L.newest + OFF_SIZE) 0) s.log sz L.id p c.source c.ts b x
        = s.mem x
      rw [write_record_frame _ _ _ _ _ _ _ _ _ (Or.inr (by simp only [HDR] at *; omega)),
        wr32_frame _ _ _ _ (Or.inl (by simp only [OFF_SIZE]; omega))]
    · show rd32 (write_record (wr32 s.mem (L.newest + OFF_SIZE) 0) s.log sz L.id p
        c.source c.ts b) (L.newest + OFF_SIZE) = 0
      rw [rd32_congr (wr32 s.mem (L.newest + OFF_SIZE) 0) _ _ (fun x hx1 _ =>
        write_record_frame _ _ _ _ _ _ _ _ _
          (Or.inr (by simp only [HDR, OFF_SIZE] at *; omega)))]
      exact rd32_wr32_same _ _ _
    · intro r hr
      simp only [List.mem_append, List.mem_singleton] at hr
      rcases hr with hr | rfl
      · exact hring.sizes r (List.mem_append_right _ (survivors_sublist _ _ _ r hr))
      · rw [hrsz]; omega
    · show (survivors (s.log + HDR + PAD sz) s.log L.lo).2.length + [c.record L.id].length
        ≤ L.id + 1
      have := survivors_length (s.log + HDR + PAD sz) L.lo s.log
      simp only [List.length_singleton]
      omega

theorem layout_add_id (base C : Nat) (L L' : Layout) (c : Call)
    (h : L.add base C c = some L') : L'.id = L.id + 1 ∧ L'.lo ≠ [] := by
  rcases layout_add_cases _ _ _ _ _ h with ⟨_, _, rfl⟩ | ⟨_, _, _, rfl⟩ | ⟨_, _, _, _, _, rfl⟩ |
    ⟨_, _, _, rfl⟩ <;> exact ⟨rfl, by simp⟩

theorem layout_run_id (base C : Nat) : ∀ (cs : List Call) (L L' : Layout),
    Layout.run base C cs L = some L' → L'.id = L.id + cs.length ∧ (cs ≠ [] → L'.lo ≠ [])
  | [], L, L', h => by
    simp only [Layout.run, Option.some.injEq] at h
    subst h
    exact ⟨rfl, fun h => absurd rfl h⟩
  | c :: cs, L, L', h => by
    simp only [Layout.run] at h
    split at h
    · simp at h
    · rename_i L1 h1
      obtain ⟨e1, e2⟩ := layout_add_id _ _ _ _ _ h1
      obtain ⟨e3, e4⟩ := layout_run_id base C cs L1 L' h
      refine ⟨by rw [e3, e1, List.length_cons]; omega, fun _ => ?_⟩
      cases cs with
      | nil =>
        simp only [Layout.run, Option.some.injEq] at h
        subst h
        exact e2
      | cons c' cs' => exact e4 (by simp)

theorem layout_run_append (base C : Nat) : ∀ (cs cs' : List Call) (L : Layout),
    Layout.run base C (cs ++ cs') L = (Layout.run base C cs L).bind (Layout.run base C cs')
  | [], _, _ => rfl
  | c :: cs, cs', L => by
    simp only [List.cons_append, Layout.run]
    cases L.add base C c with
    | none => rfl
    | some L1 => exact layout_run_append base C cs cs' L1

theorem run_calls_append (fuel : Nat) : ∀ (cs cs' : List Call) (s : LogState),
    run_calls fuel (cs ++ cs') s = (run_calls fuel cs s).bind (run_calls fuel cs')
  | [], _, _ => rfl
  | c :: cs, cs', s => by
    simp only [List.cons_append, run_calls]
    cases log_add fuel c.buf c.size c.source c.ts s with
    | none => rfl
    | some r => exact run_calls_append fuel cs cs' r.1

theorem run_calls_ring (fuel base C : Nat) (hbase : 0 < base) (hC : C < 2 ^ 31) :
    ∀ (cs : List Call) (s : LogState) (L L' : Layout), Ring base C s L →
      (∀ c ∈ cs, c.retained = true) → L.id + cs.length < 4294967296 →
      L.id + cs.length + 1 ≤ fuel → Layout.run base C cs L = some L' →
      ∃ s', run_calls fuel cs s = some s' ∧ Ring base C s' L'
  | [], s, L, L', hring, _, _, _, h => by
    simp only [Layout.run, Option.some.injEq] at h
    subst h
    exact ⟨s, rfl, hring⟩
  | c :: cs, s, L, L', hring, hret, hid, hfuel, h => by
    simp only [Layout.run] at h
    split at h
    · simp at h
    · rename_i L1 h1
      have hcount := hring.count
      simp only [List.length_cons] at hid hfuel
      obtain ⟨p, b, sz, _, s1, hs1, hring1, _⟩ := log_add_ring fuel base C s L L1 c hbase hC hring
        (hret c (List.mem_cons_self _ _)) (by omega) h1 (by omega)
      obtain ⟨e1, _⟩ := layout_add_id _ _ _ _ _ h1
      obtain ⟨s', hs', hring'⟩ := run_calls_ring fuel base C hbase hC cs s1 L1 L' hring1
        (fun x hx => hret x (List.mem_cons_of_mem _ hx)) (by omega) (by omega) h
      exact ⟨s', by simp only [run_calls, hs1, hs'], hring'⟩

theorem ring_fresh (m : Mem) (base C : Nat) (hC : 0 < C) :
    Ring base C (fresh m base C) (Layout.init base) :=
  ⟨rfl, rfl, rfl, rfl, rfl, by show base < base + C; omega, rfl, fun _ => rfl,
    fun h => absurd rfl h, fun r hr => by simp [Layout.init] at hr, Nat.le_refl _⟩

theorem boot_run_ring (fuel : Nat) (m : Mem) (base C : Nat) (cs : List Call) (L : Layout)
    (hbase : 0 < base) (hC0 : 0 < C) (hC : C < 2 ^ 31) (hret : ∀ c ∈ cs, c.retained = true)
    (hlen : cs.length < 4294967296) (hfuel : cs.length + 1 ≤ fuel)
    (hL : expected_layout base C cs = some L) :
    ∃ s, boot_run fuel m base C cs = some s ∧ Ring base C s L ∧ L.id = cs.length := by
  obtain ⟨s, hs, hring⟩ := run_calls_ring fuel base C hbase hC cs (fresh m base C)
    (Layout.init base) L (ring_fresh m base C hC0) hret (by show 0 + cs.length < _; omega)
    (by show 0 + cs.length + 1 ≤ fuel; omega) hL
  refine ⟨s, ?_, hring, ?_⟩
  · simp only [boot_run, log_buffer_init_boot]
    exact hs
  · have := (layout_run_id base C cs _ L hL).1
    simpa [Layout.init] using this

theorem kept_addrs_keep (w q n : Nat) (l : List Nat)
    (h : ∀ x ∈ l, (x < q ∨ n < x) ∧ (q = w ∨ x < w)) : kept_addrs w q n l = l := by
  unfold kept_addrs
  rw [List.filter_eq_self]
  intro x hx
  obtain ⟨h1, h2⟩ := h x hx
  simp only [Bool.and_eq_true, Bool.not_eq_true', Bool.and_eq_false_iff, decide_eq_false_iff_not,
    Bool.or_eq_true, decide_eq_true_eq]
  exact ⟨by omega, h2⟩

theorem kept_addrs_drop (w q n : Nat) (l : List Nat)
    (h : ∀ x ∈ l, (q ≤ x ∧ x ≤ n) ∨ (q ≠ w ∧ w ≤ x)) : kept_addrs w q n l = [] := by
  unfold kept_addrs
  rw [List.filter_eq_nil_iff]
  intro x hx
  simp only [Bool.and_eq_true, Bool.not_eq_true', Bool.and_eq_false_iff, decide_eq_false_iff_not,
    Bool.or_eq_true, decide_eq_true_eq, not_and, not_or]
  intro h1
  rcases h x hx with h2 | h2
  · omega
  · exact ⟨h2.1, by omega⟩

theorem kept_addrs_append (w q n : Nat) (l1 l2 : List Nat) :
    kept_addrs w q n (l1 ++ l2) = kept_addrs w q n l1 ++ kept_addrs w q n l2 := by
  unfold kept_addrs
  rw [List.filter_append]

theorem ring_add_kept (base C : Nat) (s s' : LogState) (L L' : Layout) (c : Call)
    (p : Nat) (b : List Nat) (sz : Nat) (hring : Ring base C s L) (hring' : Ring base C s' L')
    (hadd : L.add base C c = some L')
    (hmem : s'.mem = (if L.newest + c.footprint < base + C then
          write_record s.mem L.newest sz L.id p c.source c.ts b
        else write_record (wr32 s.mem (L.newest + OFF_SIZE) 0) base sz L.id p c.source c.ts b)) :
    L'.newest = L.slot base C c + c.footprint ∧
    L'.live base = kept_addrs L.newest (L.slot base C c) L'.newest (L.live base)
      ++ [L.slot base C c] ∧
    record_at s'.mem (L.slot base C c) = c.record L.id ∧
    ∀ a ∈ kept_addrs L.newest (L.slot base C c) L'.newest (L.live base),
      record_at s'.mem a = record_at s.mem a := by
  have hle := chain_le _ _ _ _ hring.low
  have hlolt := lt_of_mem_addrs_chain _ _ _ _ hring.low
  have hpad := le_PAD sz
  have hlow' := hring'.low
  have hup' := hring'.upper
  rcases layout_add_cases _ _ _ _ _ hadd with ⟨hfit, hup, hL'⟩ | ⟨hfit, hup, hs, hL'⟩ |
    ⟨hfit, hup, hs, hen, hlast, hL'⟩ | ⟨hfit, hfpc, hs, hL'⟩
  · subst hL'
    rw [if_pos hfit] at hmem
    have hfr : Chain s'.mem base L.lo L.newest :=
      chain_congr _ _ _ _ _ hring.low fun x _ hx2 => by
        rw [hmem]; exact write_record_frame _ _ _ _ _ _ _ _ _ (Or.inl hx2)
    have hk : kept_addrs L.newest L.newest (L.newest + c.footprint) (L.live base)
        = addrs base L.lo := by
      simp only [Layout.live, hup, addrs, List.nil_append]
      exact kept_addrs_keep _ _ _ _ fun x hx => ⟨Or.inl (hlolt x hx), Or.inl rfl⟩
    simp only [Layout.slot, if_pos hfit]
    rw [hk]
    refine ⟨trivial, ?_, chain_last _ _ _ _ _ _ hfr hlow', ?_⟩
    · simp only [Layout.live, hup, addrs, List.nil_append]
      exact addrs_snoc _ _ _ _ _ hring.low
    · exact chain_record_eq _ _ _ _ _ hring.low hfr
  · subst hL'
    rw [if_pos hfit] at hmem
    obtain ⟨_, hno, hchu, _, _⟩ := hring.upper hup
    obtain ⟨_, _, hchu', _, _⟩ := hup' hs
    obtain ⟨pre, s1, s2, s3, s4, s5, s6⟩ := survivors_spec s.mem (L.newest + c.footprint) L.up
      L.oldest L.e hchu
    have hsl := survivors_lt (L.newest + c.footprint) L.up L.oldest hs
    have hfr : Chain s'.mem base L.lo L.newest :=
      chain_congr _ _ _ _ _ hring.low fun x _ hx2 => by
        rw [hmem]; exact write_record_frame _ _ _ _ _ _ _ _ _ (Or.inl hx2)
    have hk : kept_addrs L.newest L.newest (L.newest + c.footprint) (L.live base)
        = addrs (survivors (L.newest + c.footprint) L.oldest L.up).1
            (survivors (L.newest + c.footprint) L.oldest L.up).2 ++ addrs base L.lo := by
      simp only [Layout.live]
      rw [s3, kept_addrs_append, kept_addrs_append,
        kept_addrs_drop _ _ _ _ (fun x hx => Or.inl ⟨by
          have := le_of_mem_addrs _ _ _ hx
          omega, s4 x hx⟩),
        kept_addrs_keep _ _ _ _ (fun x hx => ⟨Or.inr (hsl x hx), Or.inl rfl⟩),
        kept_addrs_keep _ _ _ _ (fun x hx => ⟨Or.inl (hlolt x hx), Or.inl rfl⟩), List.nil_append]
    simp only [Layout.slot, if_pos hfit]
    rw [hk]
    refine ⟨trivial, ?_, chain_last _ _ _ _ _ _ hfr hlow', ?_⟩
    · show addrs _ _ ++ addrs base (L.lo ++ [c.record L.id]) = _
      rw [addrs_snoc _ _ _ _ _ hring.low, List.append_assoc]
    · intro a ha
      simp only [List.mem_append] at ha
      rcases ha with ha | ha
      · exact chain_record_eq _ _ _ _ _ s2 hchu' a ha
      · exact chain_record_eq _ _ _ _ _ hring.low hfr a ha
  · subst hL'
    rw [if_pos hfit] at hmem
    obtain ⟨_, hno, hchu, _, _⟩ := hring.upper hup
    obtain ⟨pre, s1, s2, s3, s4, s5, s6⟩ := survivors_spec s.mem (L.newest + c.footprint) L.up
      L.oldest L.e hchu
    rw [hs] at s3
    simp only [addrs, List.append_nil] at s3
    have hfr : Chain s'.mem base L.lo L.newest :=
      chain_congr _ _ _ _ _ hring.low fun x _ hx2 => by
        rw [hmem]; exact write_record_frame _ _ _ _ _ _ _ _ _ (Or.inl hx2)
    have hk : kept_addrs L.newest L.newest (L.newest + c.footprint) (L.live base)
        = addrs base L.lo := by
      simp only [Layout.live]
      rw [s3, kept_addrs_append,
        kept_addrs_drop _ _ _ _ (fun x hx => Or.inl ⟨by
          have := le_of_mem_addrs _ _ _ hx
          omega, s4 x hx⟩),
        kept_addrs_keep _ _ _ _ (fun x hx => ⟨Or.inl (hlolt x hx), Or.inl rfl⟩), List.nil_append]
    simp only [Layout.slot, if_pos hfit]
    rw [hk]
    refine ⟨trivial, ?_, chain_last _ _ _ _ _ _ hfr hlow', ?_⟩
    · show addrs base [] ++ addrs base (L.lo ++ [c.record L.id]) = _
      rw [addrs_snoc _ _ _ _ _ hring.low]
      rfl
    · exact chain_record_eq _ _ _ _ _ hring.low hfr
  · subst hL'
    rw [if_neg hfit] at hmem
    obtain ⟨_, _, hchu', _, _⟩ := hup' hs
    obtain ⟨pre, s1, s2, s3, s4, s5, s6⟩ := survivors_spec s.mem (base + c.footprint) L.lo
      base L.newest hring.low
    have hsl := survivors_lt (base + c.footprint) L.lo base hs
    have hsuflt := lt_of_mem_addrs_chain _ _ _ _ s2
    have hgt := s5 hs
    have hoe := chain_le _ _ _ _ s2
    have hqw : base ≠ L.newest := by omega
    have hk : kept_addrs L.newest base (base + c.footprint) (L.live base)
        = addrs (survivors (base + c.footprint) base L.lo).1
            (survivors (base + c.footprint) base L.lo).2 := by
      simp only [Layout.live]
      rw [s3, kept_addrs_append, kept_addrs_append,
        kept_addrs_drop _ _ _ _ (fun x hx => Or.inr ⟨hqw, by
          have hne : L.up ≠ [] := by
            intro e
            rw [e] at hx
            simp [addrs] at hx
          obtain ⟨_, hno, _, _, _⟩ := hring.upper hne
          have := le_of_mem_addrs _ _ _ hx
          omega⟩),
        kept_addrs_drop _ _ _ _ (fun x hx => Or.inl ⟨le_of_mem_addrs _ _ _ hx, s4 x hx⟩),
        kept_addrs_keep _ _ _ _ (fun x hx => ⟨Or.inr (hsl x hx), Or.inr (hsuflt x hx)⟩),
        List.nil_append, List.nil_append]
    simp only [Layout.slot, if_neg hfit]
    rw [hk]
    refine ⟨trivial, rfl, ?_, ?_⟩
    · simp only [Chain] at hlow'
      exact hlow'.1
    · exact chain_record_eq _ _ _ _ _ s2 hchu'

/-- A priority token with more digits than a `long` holds: for the line
`<18446744073709551800>x` `atoi` gives -1 (the pattern `0xffffffff`), whose
facility bits are not those of `LOG_LOCAL7`, so the line is not a debug line. -/
theorem log_add_parse_saturated_priority :
    log_add_parse [60, 49, 56, 52, 52, 54, 55, 52, 52, 48, 55, 51, 55, 48, 57, 53, 53, 49, 56, 48,
        48, 62, 120, 0] 24 SOURCE_SYSLOG = some (4294967295, [120, 0], 2) ∧
    4294967295 &&& LOG_FACMASK ≠ LOG_LOCAL7 := by
  decide

theorem evict_linear_stall : ∀ (fuel : Nat) (s : LogState) (next : Nat),
    s.oldest > s.newest ∧ s.oldest ≤ next ∧ s.oldest ≠ s.log →
    log_next s s.oldest (to_int (rd32 s.mem (s.oldest + OFF_SIZE))) = s.oldest →
    evict_linear fuel s next = none
  | 0, _, _, _, _ => rfl
  | f + 1, s, next, hc, hn => by
    simp only [evict_linear]
    rw [if_pos hc, hn]
    exact evict_linear_stall f s next hc hn

set_option maxRecDepth 100000 in
/-- On a store of capacity 200, after the three lines of `stall_calls` (the
second and the third wrap) `oldest` is at offset 132, in the text the first
line left there, where the `size` field reads `0xffffffe0`, which is -32 as an
`int`: `log_next` returns `oldest` itself and the loop of lines 197-198 of a
fourth call never ends. -/
theorem linear_eviction_loop_stalls :
    ∃ s, boot_run 8 zero_mem 1000 200 stall_calls = some s ∧ s.oldest = 1132 ∧
      rd32 s.mem (1132 + OFF_SIZE) = 4294967264 ∧
      ∀ fuel, log_add fuel (klog_call [100, 100, 100]).buf 8 SOURCE_KLOG (7, 9) s = none := by
  have h : (boot_run 8 zero_mem 1000 200 stall_calls).map (fun s =>
      (s.log, s.log_end, s.oldest, s.newest, rd32 s.mem (1132 + OFF_SIZE)))
      = some (1000, 1200, 1132, 1100, 4294967264) := by decide
  cases hb : boot_run 8 zero_mem 1000 200 stall_calls with
  | none => rw [hb] at h; simp at h
  | some s =>
    rw [hb] at h
    simp only [Option.map_some', Option.some.injEq, Prod.mk.injEq] at h
    obtain ⟨hlog, hend, hold, hnew, hsz⟩ := h
    refine ⟨s, rfl, hold, hsz, ?_⟩
    intro fuel
    have hparse : log_add_parse (klog_call [100, 100, 100]).buf 8 SOURCE_KLOG
        = some (14, [100, 100, 100, 0], 4) := by decide
    rw [log_add_retained fuel _ _ _ _ s 14 _ 4 (by omega) hparse (by decide)]
    have hn : log_next s s.newest ((4 : Nat) : Int) = 1136 := by
      simp only [log_next_ofNat, hend, hnew, hlog, HDR, PAD]
      decide
    have hst : log_next s s.oldest (to_int (rd32 s.mem (s.oldest + OFF_SIZE))) = s.oldest := by
      rw [hold, hsz]
      simp only [log_next, hend, hlog]
      decide
    have hev := evict_linear_stall fuel s 1136 (by omega) hst
    simp only [log_add_insert, hn]
    rw [if_pos (by omega), hev]
    rfl

set_option maxRecDepth 100000 in
/-- A cursor on a record that a wrap has dropped without writing to it: on a
store of capacity 200, after five of the lines of `drop_calls` the records at
the offsets 124 and 160 are live; the sixth line wraps a second time, is stored
at the offsets 0 to 79 and drops both. The record at offset 124 still holds its
text, and `log_list(0, 1124)` returns the slot at offset 160, which full
enumeration no longer yields. -/
theorem log_list_dropped_cursor_returns_dropped_slot :
    ((boot_run 8 zero_mem 1000 200 (drop_calls.take 5)).bind fun s => enumerate 8 s 0)
        = some [1124, 1160, 1000, 1084] ∧
    ((boot_run 8 zero_mem 1000 200 drop_calls).bind fun s => enumerate 8 s 0)
        = some [1084, 1000] ∧
    ((boot_run 8 zero_mem 1000 200 drop_calls).map fun s => (record_at s.mem 1124).data)
        = some [98, 98, 98, 0] ∧
    ((boot_run 8 zero_mem 1000 200 drop_calls).bind fun s => log_list 8 s 0 1124)
        = some 1160 := by
  decide

/-! ## The claims -/

/-- C1 (code defect): on a store of capacity 100 that received three records of
footprint 36, the third insert wraps and leaves `oldest` on the zero-size
sentinel at offset 72; full enumeration then yields that sentinel slot (id
field 0) followed by the record with id 2, so the ids 0, 2 are not gap-free.
On the store as initialised, before any call, enumeration yields the slot at
the region start, whose id field 0 is not below `current_id = 0`. -/
theorem enumeration_after_wrap_has_id_gap :
    ((boot_run 8 zero_mem 1000 100 three_calls).bind fun s => enumerate 8 s 0)
        = some [1072, 1000] ∧
    ((boot_run 8 zero_mem 1000 100 three_calls).map fun s =>
        ((record_at s.mem 1072).id, (record_at s.mem 1000).id, s.current_id))
        = some (0, 2, 3) ∧
    ((boot_run 8 zero_mem 1000 100 []).bind fun s => enumerate 8 s 0) = some [1000] ∧
    ((boot_run 8 zero_mem 1000 100 []).map fun s =>
        ((record_at s.mem 1000).id, s.current_id)) = some (0, 0) := by
  decide

/-- C2 (code defect): three retained records of footprint 36 each (108 in
total) on a store of capacity 100: full enumeration yields two slots, and the
first one is the zero-size sentinel at offset 72, which is none of the inserted
records (they all have size 4 and priority 14). -/
theorem enumeration_over_capacity_yields_sentinel :
    three_calls.map Call.footprint = [36, 36, 36] ∧
    ((boot_run 8 zero_mem 1000 100 three_calls).bind fun s =>
        (enumerate 8 s 0).map fun l => l.map fun h => record_at s.mem h)
        = some [⟨0, 0, 0, 0, (0, 0), []⟩, ⟨4, 2, 14, 0, (7, 9), [103, 104, 105, 0]⟩] := by
  decide

/-- C3: a non-empty sequence of retained calls whose footprints sum to less
than the capacity, on a store initialised at program start: every call
returns, `oldest` stays at the region start, and full enumeration with
`log_list(0, .)` yields exactly the inserted records, in insertion order, with
the ids 0, 1, 2, ... and the fields and text they were inserted with. -/
theorem under_capacity_enumeration (fuel : Nat) (m : Mem) (base C : Nat) (cs : List Call)
    (hfuel : 0 < fuel) (hbase : 0 < base) (hC : C < 2 ^ 31) (hne : cs ≠ [])
    (hret : ∀ c ∈ cs, c.retained = true) (hsum : (cs.map Call.footprint).sum < C) :
    ∃ s, boot_run fuel m base C cs = some s ∧ s.oldest = s.log ∧ s.log = base ∧
      s.current_id = cs.length ∧
      ∀ F, cs.length < F →
        (enumerate F s 0).map (List.map (record_at s.mem)) = some (expected_records cs 0) := by
  obtain ⟨s, hs, hlin, _⟩ := boot_run_linear fuel m base C cs hfuel hbase hC hret hsum
  refine ⟨s, hs, by rw [hlin.oldest_eq, hlin.log_eq], hlin.log_eq, ?_, ?_⟩
  · rw [hlin.id_eq, expected_records_length]
  · intro F hF
    rw [linear_enumerate base C s _ F hbase hC hlin (expected_records_ne_nil cs 0 hne)
      (by rw [expected_records_length]; exact hF)]
    simp only [Option.map_some']
    rw [map_record_at_addrs _ _ _ _ hlin.chain]

/-- Witness of C3: two kernel lines on a store of capacity 100. -/
theorem under_capacity_enumeration_witness :
    ∃ s, boot_run 1 zero_mem 1000 100 two_calls = some s ∧ s.oldest = 1000 ∧
      (enumerate 3 s 0).map (List.map (record_at s.mem)) =
        some [⟨4, 0, 14, 0, (7, 9), [97, 98, 99, 0]⟩, ⟨4, 1, 14, 0, (7, 9), [100, 101, 102, 0]⟩] := by
  obtain ⟨s, h1, h2, h3, _, h5⟩ := under_capacity_enumeration 1 zero_mem 1000 100 two_calls
    (by decide) (by decide) (by decide) (by decide) (by decide) (by decide)
  exact ⟨s, h1, by rw [h2, h3], h5 3 (by decide)⟩

/-- C5 (code defect): a store of capacity 100 holding the record `abc` (size 4,
id 0, priority 14) is resized to 200 bytes, the new block being at 2000. The
call returns 0, but the slot enumeration yields first holds size 4, id 0,
priority 0, a zero timestamp and four zero bytes: `memcpy` copied 8 bytes only.
`newest` is left at 1036, inside the old block, so `log_list(0, 2000)` returns
2000 again and enumeration does not end. -/
theorem resize_larger_loses_record :
    ((boot_run 8 zero_mem 1000 100 [klog_call [97, 98, 99]]).bind fun s =>
        (enumerate 8 s 0).map fun l => l.map fun h => record_at s.mem h)
        = some [⟨4, 0, 14, 0, (7, 9), [97, 98, 99, 0]⟩] ∧
    ((boot_run_resize 8 zero_mem 1000 100 [klog_call [97, 98, 99]] 2000 200).map fun r =>
        (r.1, r.2.log, r.2.log_end, r.2.oldest, r.2.newest)) = some (0, 2000, 2200, 2000, 1036) ∧
    ((boot_run_resize 8 zero_mem 1000 100 [klog_call [97, 98, 99]] 2000 200).bind fun r =>
        log_list 8 r.2 0 0) = some 2000 ∧
    ((boot_run_resize 8 zero_mem 1000 100 [klog_call [97, 98, 99]] 2000 200).map fun r =>
        record_at r.2.mem 2000) = some ⟨4, 0, 0, 0, (0, 0), [0, 0, 0, 0]⟩ ∧
    ((boot_run_resize 8 zero_mem 1000 100 [klog_call [97, 98, 99]] 2000 200).bind fun r =>
        log_list 8 r.2 0 2000) = some 2000 := by
  decide

/-- C6 (counterexample): a store of capacity 100 holding the record `abc`
(footprint 36) is resized to 64 bytes, the new block being at 2000. The call
returns 0 and full enumeration then yields one slot, of size 0 and id 0: the
record, which fits in 64 bytes, is gone. -/
theorem resize_smaller_drops_record :
    ((boot_run 8 zero_mem 1000 100 [klog_call [97, 98, 99]]).bind fun s =>
        (enumerate 8 s 0).map fun l => l.map fun h => record_at s.mem h)
        = some [⟨4, 0, 14, 0, (7, 9), [97, 98, 99, 0]⟩] ∧
    ((boot_run_resize 8 zero_mem 1000 100 [klog_call [97, 98, 99]] 2000 64).map fun r => r.1)
        = some 0 ∧
    ((boot_run_resize 8 zero_mem 1000 100 [klog_call [97, 98, 99]] 2000 64).bind fun r =>
        (enumerate 8 r.2 0).map fun l => l.map fun h => record_at r.2.mem h)
        = some [⟨0, 0, 0, 0, (0, 0), []⟩] := by
  decide

/-- C6 (amended): `log_buffer_init(size)` with `size` at most
`log_size + sizeof(struct log_head)`, so with every smaller capacity, succeeds
and migrates nothing: the new block is zero-filled, `oldest` and `newest` are
its start, and `current_id` keeps its value. -/
theorem log_buffer_init_without_growth_discards (fuel base size : Nat) (s : LogState)
    (h : size ≤ s.log_size + HDR) :
    log_buffer_init fuel (some base) size s =
      some (0, { mem := calloc s.mem base size, log := base, log_end := base + size,
                 oldest := base, newest := base, log_size := size,
                 current_id := s.current_id }) := by
  simp only [log_buffer_init]
  rw [if_neg (by omega)]

/-- Witness of C6 (amended): a store of capacity 100 that holds the record
`abc` (`current_id` is 1) is resized to 64 bytes: the new store is empty and
`current_id` is still 1. -/
theorem log_buffer_init_without_growth_discards_witness :
    ∃ s, boot_run 8 zero_mem 1000 100 [klog_call [97, 98, 99]] = some s ∧
      enumerate 8 s 0 = some [1000] ∧ s.current_id = 1 ∧
      log_buffer_init 8 (some 2000) 64 s =
        some (0, { mem := calloc s.mem 2000 64, log := 2000, log_end := 2000 + 64,
                   oldest := 2000, newest := 2000, log_size := 64, current_id := 1 }) := by
  have h : (boot_run 8 zero_mem 1000 100 [klog_call [97, 98, 99]]).map (fun s =>
      (s.current_id, s.log_size)) = some (1, 100) := by decide
  have he : ((boot_run 8 zero_mem 1000 100 [klog_call [97, 98, 99]]).bind fun s =>
      enumerate 8 s 0) = some [1000] := by decide
  cases hb : boot_run 8 zero_mem 1000 100 [klog_call [97, 98, 99]] with
  | none => rw [hb] at h; simp at h
  | some s =>
    rw [hb] at h he
    simp only [Option.map_some', Option.some.injEq, Prod.mk.injEq] at h
    simp only [Option.some_bind] at he
    have hr := log_buffer_init_without_growth_discards 8 2000 64 s (by omega)
    rw [h.1] at hr
    exact ⟨s, rfl, he, h.1, hr⟩

/-- C7: when `calloc` fails, `log_buffer_init` returns -1 and the state (region
contents and every global) is the one before the call. -/
theorem log_buffer_init_alloc_failure (fuel size : Nat) (s : LogState) :
    log_buffer_init fuel none size s = some (-1, s) := by
  rfl

/-- C8 (counterexample): on a store of capacity 108 holding two records of
footprint 36, `newest` is at offset 72 and a third record of footprint 36 fills
the region exactly (72 + 36 = 108). `log_add` stores it at the region start
(the pointer handed to `ubus_notify_log` is 1000), leaves a zero `size` at the
former `newest` 1072 and sets `newest` to 1036. -/
theorem exact_fill_wraps :
    ((boot_run 8 zero_mem 1000 108 two_calls).map fun s => (s.newest, s.log_end))
        = some (1072, 1108) ∧
    (klog_call [103, 104, 105]).footprint = 36 ∧
    ((boot_run 8 zero_mem 1000 108 two_calls).bind fun s =>
        (log_add 8 [60, 49, 52, 62, 103, 104, 105, 0] 8 SOURCE_KLOG (7, 9) s).map fun r =>
          (r.2, r.1.newest, rd32 r.1.mem 1072, (record_at r.1.mem 1000).id))
        = some (1000, 1036, 0, 2) := by
  decide

/-- C8 (amended): `log_add` stores the record at the former `newest`, without
a zero `size` there, exactly when `newest + footprint` is strictly below the
region end; when `newest + footprint` reaches the region end, exact fill
included, it stores a zero `size` at the former `newest`, the record at the
region start, and sets `newest` to `log_next(log, size)`. On a store reached
from initialisation by retained calls each of which left `oldest` on a live
record (the layout `L` is defined), a further call of that kind returns and
does so; on any state with `newest` not below `log`, a call that returns has
done so. -/
theorem log_add_insert_write_position (fuel : Nat) (m : Mem) (base C : Nat) (cs : List Call)
    (c : Call) (L L' : Layout) (hbase : 0 < base) (hC0 : 0 < C) (hC : C < 2 ^ 31)
    (hret : ∀ x ∈ cs, x.retained = true) (hc : c.retained = true)
    (hL : expected_layout base C cs = some L) (hL' : L.add base C c = some L')
    (hlen : cs.length < 2 ^ 31) (hfuel : cs.length + 2 ≤ fuel) :
    (∃ s s' p b sz, boot_run fuel m base C cs = some s ∧ s.newest = L.newest ∧
      log_add_parse c.buf c.size c.source = some (p, b, sz) ∧
      log_add fuel c.buf c.size c.source c.ts s = some (s', L.slot base C c) ∧
      s'.newest = L.slot base C c + c.footprint ∧
      (L.newest + c.footprint < base + C →
        L.slot base C c = L.newest ∧
        s'.mem = write_record s.mem L.newest sz cs.length p c.source c.ts b ∧
        rd32 s'.mem (L.newest + OFF_SIZE) = sz ∧ 0 < sz) ∧
      (base + C ≤ L.newest + c.footprint →
        L.slot base C c = base ∧
        s'.mem = write_record (wr32 s.mem (L.newest + OFF_SIZE) 0) base sz cs.length p c.source
          c.ts b ∧
        rd32 s'.mem (L.newest + OFF_SIZE) = 0)) ∧
    ∀ (t t' : LogState) (f q priority size source : Nat) (ts : Nat × Nat) (buf : List Nat),
      t.log ≤ t.newest → log_add_insert f priority buf size source ts t = some (t', q) →
      (t.newest + HDR + PAD size < t.log_end →
        q = t.newest ∧ t'.newest = t.newest + HDR + PAD size ∧
        t'.mem = write_record t.mem t.newest size t.current_id priority source ts buf) ∧
      (t.log_end ≤ t.newest + HDR + PAD size →
        q = t.log ∧ t'.newest = log_next t t.log size ∧
        t'.mem = write_record (wr32 t.mem (t.newest + OFF_SIZE) 0) t.log size t.current_id
          priority source ts buf) := by
  constructor
  · obtain ⟨s, hs, hring, hid⟩ := boot_run_ring fuel m base C cs L hbase hC0 hC hret (by omega)
      (by omega) hL
    have hcount := hring.count
    obtain ⟨p, b, sz, hp, s', hs', hring', hmem⟩ := log_add_ring fuel base C s L L' c hbase hC
      hring hc (by omega) hL' (by omega)
    obtain ⟨k1, _, _, _⟩ := ring_add_kept base C s s' L L' c p b sz hring hring' hL' hmem
    obtain ⟨p', b', sz', hp', _, hsz, _⟩ := retained_parse c hc
    rw [hp] at hp'
    simp only [Option.some.injEq, Prod.mk.injEq] at hp'
    obtain ⟨rfl, rfl, rfl⟩ := hp'
    have hfpe : c.footprint = HDR + PAD sz := by simp only [Call.footprint, hp]
    have hle := chain_le _ _ _ _ hring.low
    have hpad := le_PAD sz
    refine ⟨s, s', p, b, sz, hs, hring.newest_eq, hp, hs', by rw [hring'.newest_eq, k1], ?_, ?_⟩
    · intro hfit
      rw [if_pos hfit, hid] at hmem
      refine ⟨by simp only [Layout.slot, if_pos hfit], hmem, ?_, by omega⟩
      rw [hmem, rd32_write_record_size, Nat.mod_eq_of_lt (by simp only [HDR] at *; omega)]
    · intro hfull
      have hfit : ¬ L.newest + c.footprint < base + C := by omega
      rw [if_neg hfit, hid] at hmem
      refine ⟨by simp only [Layout.slot, if_neg hfit], hmem, ?_⟩
      rcases layout_add_cases _ _ _ _ _ hL' with ⟨h, _⟩ | ⟨h, _⟩ | ⟨h, _⟩ | ⟨_, _, hsv, hL1⟩
      · exact absurd h hfit
      · exact absurd h hfit
      · exact absurd h hfit
      · subst hL1
        exact (hring'.upper hsv).2.2.2.1
  · intro t t' f q priority size source ts buf hlog h
    rcases log_add_insert_cases _ _ _ _ _ _ _ _ _ h with
      ⟨hgt, hq, hn, _, _, hm⟩ | ⟨hgt, hq, hn, _, _, hm⟩
    · rw [log_next_ofNat] at hgt hn
      constructor
      · intro hfit
        rw [if_neg (by omega)] at hn
        exact ⟨hq, hn, hm⟩
      · intro hfull
        rw [if_pos (by omega)] at hgt
        omega
    · constructor
      · intro hfit
        rw [log_next_ofNat, if_neg (by omega)] at hgt
        simp only [HDR] at hgt
        omega
      · intro _
        exact ⟨hq, hn, hm⟩

/-- Witness of C8 (amended): after three records of footprint 36 `newest` is at
offset 108. On a store of capacity 144 a fourth record of footprint 36 fills
the region exactly: it is stored at the region start, `newest` becomes 1036 and
the slot at 1108 holds a zero `size`. On a store of capacity 148 the same
record is stored at 1108 and `newest` becomes 1144. -/
theorem log_add_insert_write_position_witness :
    (∃ s s', boot_run 8 zero_mem 1000 144 three_calls = some s ∧ s.newest = 1108 ∧
      log_add 8 (klog_call [106, 107, 108]).buf 8 SOURCE_KLOG (7, 9) s = some (s', 1000) ∧
      s'.newest = 1036 ∧ rd32 s'.mem 1108 = 0) ∧
    (∃ s s', boot_run 8 zero_mem 1000 148 three_calls = some s ∧ s.newest = 1108 ∧
      log_add 8 (klog_call [106, 107, 108]).buf 8 SOURCE_KLOG (7, 9) s = some (s', 1108) ∧
      s'.newest = 1144 ∧ rd32 s'.mem 1108 = 4) := by
  constructor
  · obtain ⟨⟨s, s', p, b, sz, h1, h2, h3, h4, h5, _, h7⟩, _⟩ :=
      log_add_insert_write_position 8 zero_mem 1000 144 three_calls (klog_call [106, 107, 108])
        ((expected_layout 1000 144 three_calls).get (by decide))
        ((((expected_layout 1000 144 three_calls).get (by decide)).add 1000 144
          (klog_call [106, 107, 108])).get (by decide))
        (by decide) (by decide) (by decide) (by decide) (by decide)
        (Option.some_get _).symm (Option.some_get _).symm (by decide) (by decide)
    obtain ⟨_, _, h8⟩ := h7 (by decide)
    exact ⟨s, s', h1, h2.trans (by decide), h4, h5.trans (by decide), h8⟩
  · obtain ⟨⟨s, s', p, b, sz, h1, h2, h3, h4, h5, h6, _⟩, _⟩ :=
      log_add_insert_write_position 8 zero_mem 1000 148 three_calls (klog_call [106, 107, 108])
        ((expected_layout 1000 148 three_calls).get (by decide))
        ((((expected_layout 1000 148 three_calls).get (by decide)).add 1000 148
          (klog_call [106, 107, 108])).get (by decide))
        (by decide) (by decide) (by decide) (by decide) (by decide)
        (Option.some_get _).symm (Option.some_get _).symm (by decide) (by decide)
    obtain ⟨_, _, h8, _⟩ := h6 (by decide)
    have hp : log_add_parse (klog_call [106, 107, 108]).buf (klog_call [106, 107, 108]).size
        (klog_call [106, 107, 108]).source = some (14, [106, 107, 108, 0], 4) := by decide
    rw [hp] at h3
    simp only [Option.some.injEq, Prod.mk.injEq] at h3
    obtain ⟨rfl, rfl, rfl⟩ := h3
    exact ⟨s, s', h1, h2.trans (by decide), h4, h5.trans (by decide), h8⟩

/-- C9: a line whose parsed priority has the debug facility leaves the whole
store state unchanged and the notification hook is not called (the pointer
handed to it is `NULL`). -/
theorem log_add_debug_facility_not_retained (fuel : Nat) (buf : List Nat) (size source : Nat)
    (ts : Nat × Nat) (s : LogState) (priority : Nat) (b : List Nat) (sz : Nat)
    (hparse : log_add_parse buf size source = some (priority, b, sz))
    (hdebug : priority &&& LOG_FACMASK = LOG_LOCAL7) :
    log_add fuel buf size source ts s = some (s, 0) := by
  unfold log_add
  by_cases h : s.log = 0
  · simp [h]
  · simp [h, hparse, hdebug]

/-- Witness of C9: the line `<191>x` (facility 23, severity 7) from the socket. -/
theorem log_add_debug_facility_not_retained_witness :
    log_add 1 [60, 49, 57, 49, 62, 120, 0] 7 SOURCE_SYSLOG (7, 9)
        { mem := zero_mem, log := 1000, log_end := 1100, oldest := 1000, newest := 1000,
          log_size := 100, current_id := 0 }
      = some ({ mem := zero_mem, log := 1000, log_end := 1100, oldest := 1000,
                newest := 1000, log_size := 100, current_id := 0 }, 0) :=
  log_add_debug_facility_not_retained 1 [60, 49, 57, 49, 62, 120, 0] 7 SOURCE_SYSLOG (7, 9)
    _ 191 [120, 0] 2 (by decide) (by decide)

/-- C10 (code defect): on a store of capacity 76 after four records (footprints
36, 36, 40, 36) `oldest` is left at offset 40 inside an overwritten header;
enumeration with `count = 1` yields two slots, the first being that stale slot
(size 0, id field 14), so more than one slot is returned. -/
theorem count_limited_enumeration_yields_two :
    ((boot_run 8 zero_mem 1000 76 four_calls).bind fun s => enumerate 8 s 1)
        = some [1040, 1000] ∧
    ((boot_run 8 zero_mem 1000 76 four_calls).map fun s =>
        ((record_at s.mem 1040).size, (record_at s.mem 1040).id,
         (record_at s.mem 1000).id, s.current_id, s.oldest, s.newest))
        = some (0, 14, 3, 4, 1040, 1036) := by
  decide

/-- C11 (code defect): on the store `log_buffer_init` leaves at program start,
with no insert (`oldest = newest`), `log_list(0, NULL)` returns `oldest`, the
region start, and not `NULL`. -/
theorem log_list_on_empty_store_returns_oldest (fuel : Nat) (m : Mem) (base size : Nat) :
    ∃ s, log_buffer_init fuel (some base) size (boot m) = some (0, s) ∧
      s.oldest = s.newest ∧ log_list fuel s 0 0 = some base := by
  refine ⟨fresh m base size, log_buffer_init_boot fuel m base size, rfl, ?_⟩
  simp [log_list, log_list_min, fresh]

/-- C13 (code defect): for the kernel line `<6>[   12.345678] eth0 up`, with the
wall clock at 1700000000.5 s and the monotonic clock at 100.25 s (an offset of
1699999900250000 microseconds), the time stamp handed to the kernel ring is the
offset plus 12000345: the six digits `345678`, which are microseconds, are
divided by 1000 as if they were nanoseconds, which leaves the result 345333
microseconds below the offset plus 12345678. The text handed over is
`eth0 up`. -/
theorem kernel_timestamp_divides_microseconds :
    log_add_parse kmsg_line 26 SOURCE_KLOG = some (6, kmsg_line.drop 3, 23) ∧
    match_tstamp (kmsg_line.drop 3) = some (4, 7, 15) ∧
    get_kernel_ts (kmsg_line.drop 7) (kmsg_line.drop 10) (some (1700000000, 500000000))
        (some (100, 250000000)) = 1699999900250000 + 12000345 ∧
    1699999900250000 + 12345678 -
      get_kernel_ts (kmsg_line.drop 7) (kmsg_line.drop 10) (some (1700000000, 500000000))
        (some (100, 250000000)) = 345333 ∧
    log_add_udebug (fun _ => true) (some (1700000000, 500000000)) (some (100, 250000000)) 42
        6 (kmsg_line.drop 3) 23 SOURCE_KLOG
      = some ⟨0, 1699999900250000 + 12000345, 6, [101, 116, 104, 48, 32, 117, 112]⟩ := by
  decide

/-- C14: after the priority token, `log_add` drops the first 16 bytes and
takes 16 off `size` when the source is `SOURCE_SYSLOG`, `size` is above 16 and
the byte at offset 15 is a space; in every other case text and `size` stay as
they are. -/
theorem syslog_timestamp_strip (buf : List Nat) (size source : Nat) (b2 : List Nat)
    (size1 : Nat) (hclean : log_add_clean buf size = some (b2, size1)) :
    (source = SOURCE_SYSLOG ∧ (log_add_prio b2 size1).2.2 > 16 ∧
        (log_add_prio b2 size1).2.1.getD 15 0 = 32 →
      log_add_parse buf size source =
        some ((log_add_prio b2 size1).1, (log_add_prio b2 size1).2.1.drop 16,
              (log_add_prio b2 size1).2.2 - 16)) ∧
    (¬ (source = SOURCE_SYSLOG ∧ (log_add_prio b2 size1).2.2 > 16 ∧
        (log_add_prio b2 size1).2.1.getD 15 0 = 32) →
      log_add_parse buf size source = some (log_add_prio b2 size1)) := by
  rw [log_add_parse_stages, hclean]
  simp only [Option.map_some', log_add_strip, SYSLOG_PADDING]
  constructor
  · intro h
    rw [if_pos h]
  · intro h
    rw [if_neg h]

/-- Witness of C14: the socket line `<13>Jan  1 00:00:00 up` loses its first 16
bytes after the priority token; the same line from the kernel keeps them. -/
theorem syslog_timestamp_strip_witness :
    log_add_parse ([60, 49, 51, 62, 74, 97, 110, 32, 32, 49, 32, 48, 48, 58, 48, 48, 58, 48, 48,
        32, 117, 112, 0]) 23 SOURCE_SYSLOG = some (13, [117, 112, 0], 3) :=
  (syslog_timestamp_strip _ 23 SOURCE_SYSLOG
    [60, 49, 51, 62, 74, 97, 110, 32, 32, 49, 32, 48, 48, 58, 48, 48, 58, 48, 48, 32, 117, 112, 0]
    23 (by decide)).1 (by decide)

/-- C16 (code defect): for the line of one space (or one line feed, which line
163 turns into a space) with `size = 2`, and for the empty line with
`size = 1`, the pointer `c` of the trim loop leaves the buffer at its start:
`buf[-1]` is read. -/
theorem trim_reads_before_buffer :
    trim_size [32, 0] 2 = none ∧ log_add_parse [32, 0] 2 SOURCE_SYSLOG = none ∧
    log_add_parse [10, 0] 2 SOURCE_SYSLOG = none ∧
    trim_size [0] 1 = none ∧ log_add_parse [0] 1 SOURCE_KLOG = none := by
  decide

/-- C15: for a NUL-terminated line with `size = strlen + 1` that holds a byte
that is not white space, the text after lines 161-172 is the input with every
line feed replaced by a space and the longest trailing run of white space
removed, with a NUL at index `size - 1`; the text `log_add` goes on with after
the priority and time-stamp steps holds no line feed and, when it is not
empty, does not end in white space. -/
theorem newline_replacement_and_trim (text rest : List Nat) (source : Nat)
    (h0 : ∀ c ∈ text, c ≠ 0) (hns : ∃ c ∈ text, isspace c = false) :
    ∃ b2, log_add_clean (text ++ 0 :: rest) (text.length + 1) =
        some (b2, (cleaned_text text).length + 1) ∧
      cstr b2 = cleaned_text text ∧ b2.getD (cleaned_text text).length 1 = 0 ∧
      ∃ p b sz, log_add_parse (text ++ 0 :: rest) (text.length + 1) source = some (p, b, sz) ∧
        10 ∉ cstr b ∧ ∀ pre c, cstr b = pre ++ [c] → isspace c = false := by
  have hclean := log_add_clean_eq text rest h0 hns
  have hcstr := cstr_log_add_clean text rest h0
  obtain ⟨w, hw⟩ := cleaned_text_prefix text
  have hlen : (cleaned_text text).length ≤ text.length := by
    have := congrArg List.length hw
    simp only [List.length_map, List.length_append] at this
    omega
  refine ⟨_, hclean, hcstr, ?_, ?_⟩
  · rw [List.getD_eq_getElem?_getD, List.getElem?_set_self (by simp; omega)]
    rfl
  · obtain ⟨p, b, sz, k, hp, hb, _, _⟩ := log_add_parse_cstr _ _ source _ _ hclean
      (by rw [hcstr])
    rw [hcstr] at hb
    refine ⟨p, b, sz, hp, ?_, ?_⟩
    · intro hmem
      rw [hb] at hmem
      have h1 : (10 : Nat) ∈ cleaned_text text := List.mem_of_mem_drop hmem
      have h2 : (10 : Nat) ∈ text.map nl_to_space := by
        rw [hw]; exact List.mem_append_left _ h1
      obtain ⟨x, _, hx⟩ := List.mem_map.1 h2
      unfold nl_to_space at hx
      split at hx <;> omega
    · intro pre c hpre
      rw [hb] at hpre
      have h1 : cleaned_text text = ((cleaned_text text).take k ++ pre) ++ [c] := by
        rw [List.append_assoc, ← hpre, List.take_append_drop]
      exact rdropWhile_ends isspace _ _ c h1

/-- Witness of C15: the socket line `a` `b` line feed `c` space line feed. -/
theorem newline_replacement_and_trim_witness :
    ∃ b2, log_add_clean ([97, 98, 10, 99, 32, 10] ++ 0 :: []) ([97, 98, 10, 99, 32, 10].length + 1) =
        some (b2, (cleaned_text [97, 98, 10, 99, 32, 10]).length + 1) ∧
      cstr b2 = cleaned_text [97, 98, 10, 99, 32, 10] ∧
      b2.getD (cleaned_text [97, 98, 10, 99, 32, 10]).length 1 = 0 ∧
      ∃ p b sz, log_add_parse ([97, 98, 10, 99, 32, 10] ++ 0 :: [])
          ([97, 98, 10, 99, 32, 10].length + 1) SOURCE_SYSLOG = some (p, b, sz) ∧
        10 ∉ cstr b ∧ ∀ pre c, cstr b = pre ++ [c] → isspace c = false :=
  newline_replacement_and_trim [97, 98, 10, 99, 32, 10] [] SOURCE_SYSLOG (by decide)
    ⟨97, by decide, by decide⟩

/-- C19: for a NUL-terminated line with `size = strlen + 1` that holds a byte
that is not white space, the sanitiser returns a `size` above 0 and a text of
exactly `size - 1` bytes other than NUL; when the line is retained, the record
`log_add` writes has this `size` and its `data` is that text and its NUL, the
`size` bytes `strcpy` stores; on an empty store with room for the footprint the
call returns, with the record at the region start. -/
theorem record_size_invariant (text rest : List Nat) (source : Nat)
    (h0 : ∀ c ∈ text, c ≠ 0) (hns : ∃ c ∈ text, isspace c = false)
    (hint : text.length + 1 < 2 ^ 31) :
    ∃ p b sz, log_add_parse (text ++ 0 :: rest) (text.length + 1) source = some (p, b, sz) ∧
      0 < sz ∧ (cstr b).length = sz - 1 ∧ (∀ c ∈ cstr b, c ≠ 0) ∧
      (cstr b ++ [0]).length = sz ∧
      (∀ fuel ts s s' q, s.log ≠ 0 → p &&& LOG_FACMASK ≠ LOG_LOCAL7 →
        log_add fuel (text ++ 0 :: rest) (text.length + 1) source ts s = some (s', q) →
        (record_at s'.mem q).size = sz ∧ (record_at s'.mem q).data = cstr b ++ [0]) ∧
      ∀ fuel m base C ts, 0 < fuel → 0 < base → p &&& LOG_FACMASK ≠ LOG_LOCAL7 →
        HDR + PAD sz < C →
        ∃ s', log_add fuel (text ++ 0 :: rest) (text.length + 1) source ts (fresh m base C)
          = some (s', base) := by
  have hclean := log_add_clean_eq text rest h0 hns
  have hcstr := cstr_log_add_clean text rest h0
  obtain ⟨w, hw⟩ := cleaned_text_prefix text
  have hlen : (cleaned_text text).length ≤ text.length := by
    have := congrArg List.length hw
    simp only [List.length_map, List.length_append] at this
    omega
  obtain ⟨p, b, sz, k, hp, _, hsz, hle⟩ := log_add_parse_cstr _ _ source _ _ hclean
    (by rw [hcstr])
  refine ⟨p, b, sz, hp, by omega, by omega, cstr_ne_zero b, by simp; omega, ?_, ?_⟩
  · intro fuel ts s s' q hlog hdbg hres
    rw [log_add_retained fuel _ _ source ts s p b sz hlog hp hdbg] at hres
    obtain ⟨m, id, hm⟩ := log_add_insert_mem _ _ _ _ _ _ _ _ _ hres
    have h1 : rd32 s'.mem (q + OFF_SIZE) = sz := by
      rw [hm, rd32_write_record_size]
      omega
    refine ⟨h1, ?_⟩
    show rdBytes s'.mem (q + HDR) (rd32 s'.mem (q + OFF_SIZE)) = _
    rw [h1, hm]
    exact rdBytes_write_record_data _ _ _ _ _ _ _ _ hsz
  · intro fuel m base C ts hfuel hbase hdbg hroom
    rw [log_add_retained fuel _ _ source ts (fresh m base C) p b sz
      (by show base ≠ 0; omega) hp hdbg]
    exact ⟨_, log_add_insert_linear fuel p b sz source ts (fresh m base C) hfuel
      (Nat.le_refl _) (by show base + HDR + PAD sz < base + C; omega)⟩

/-- Witness of C19: the kernel line `<14>abc` on an empty store of capacity
100 is stored at the region start with `size` 4 and the data `abc` and NUL. -/
theorem record_size_invariant_witness :
    ∃ s', log_add 1 [60, 49, 52, 62, 97, 98, 99, 0] 8 SOURCE_KLOG (7, 9)
        (fresh zero_mem 1000 100) = some (s', 1000) ∧
      (record_at s'.mem 1000).size = 4 ∧ (record_at s'.mem 1000).data = [97, 98, 99, 0] := by
  obtain ⟨p, b, sz, hp, _, _, _, _, hrec, hret⟩ :=
    record_size_invariant [60, 49, 52, 62, 97, 98, 99] [] SOURCE_KLOG (by decide)
      ⟨60, by decide, by decide⟩ (by decide)
  have hp' : log_add_parse ([60, 49, 52, 62, 97, 98, 99] ++ 0 :: [])
      ([60, 49, 52, 62, 97, 98, 99].length + 1) SOURCE_KLOG = some (14, [97, 98, 99, 0], 4) := by
    decide
  rw [hp'] at hp
  simp only [Option.some.injEq, Prod.mk.injEq] at hp
  obtain ⟨rfl, rfl, rfl⟩ := hp
  obtain ⟨s', hs'⟩ := hret 1 zero_mem 1000 100 (7, 9) (by decide) (by decide) (by decide)
    (by decide)
  exact ⟨s', hs', hrec 1 (7, 9) (fresh zero_mem 1000 100) s' 1000 (by decide) (by decide) hs'⟩

/-- C12: for a string of digits `d` with a value in the range of
`int` and a text `t` without NUL or line feed that does not end in white space
and does not meet the condition of the syslog time-stamp step, `log_add` on the
line `<` `d` `>` `t` goes on with the priority `decimal d`, the text `t` and
`size = strlen(t) + 1`; when the line is retained, the record written holds
that priority, that size and the text with its NUL; on an empty store with room
for the footprint the call returns, with the record at the region start. -/
theorem priority_extraction (d t rest : List Nat) (source : Nat)
    (hdig : ∀ c ∈ d, isdigit c = true) (hint : decimal d < 2 ^ 31)
    (hlen : t.length + 1 < 2 ^ 31)
    (ht : ∀ c ∈ t, c ≠ 0 ∧ c ≠ 10) (hlast : ∀ pre c, t = pre ++ [c] → isspace c = false)
    (hstrip : ¬ (source = SOURCE_SYSLOG ∧ t.length + 1 > 16 ∧ t.getD 15 0 = 32)) :
    log_add_parse (60 :: (d ++ 62 :: t) ++ 0 :: rest) ((60 :: (d ++ 62 :: t)).length + 1) source
        = some (decimal d, t ++ 0 :: rest, t.length + 1) ∧
      (∀ fuel ts s s' q, s.log ≠ 0 → decimal d &&& LOG_FACMASK ≠ LOG_LOCAL7 →
        log_add fuel (60 :: (d ++ 62 :: t) ++ 0 :: rest) ((60 :: (d ++ 62 :: t)).length + 1)
          source ts s = some (s', q) →
        (record_at s'.mem q).priority = decimal d ∧ (record_at s'.mem q).size = t.length + 1 ∧
          (record_at s'.mem q).data = t ++ [0]) ∧
      ∀ fuel m base C ts, 0 < fuel → 0 < base → decimal d &&& LOG_FACMASK ≠ LOG_LOCAL7 →
        HDR + PAD (t.length + 1) < C →
        ∃ s', log_add fuel (60 :: (d ++ 62 :: t) ++ 0 :: rest)
          ((60 :: (d ++ 62 :: t)).length + 1) source ts (fresh m base C) = some (s', base) := by
  obtain ⟨hne, hcl⟩ := prio_line_clean d t hdig ht hlast
  have hns : ∃ c ∈ 60 :: (d ++ 62 :: t), isspace c = false := ⟨60, by simp, by decide⟩
  have hclean := log_add_clean_eq _ rest hne hns
  rw [hcl] at hclean
  have hmap : (60 :: (d ++ 62 :: t)).map nl_to_space = 60 :: (d ++ 62 :: t) := by
    have := cleaned_text_prefix (60 :: (d ++ 62 :: t))
    obtain ⟨w, hw⟩ := this
    rw [hcl] at hw
    have hl := congrArg List.length hw
    simp only [List.length_map, List.length_append] at hl
    have : w = [] := List.eq_nil_of_length_eq_zero (by omega)
    rw [hw, this, List.append_nil]
  rw [hmap, set_append_zero] at hclean
  have hm := match_prio_line d t rest hdig (fun c hc => (ht c hc).1)
  have hprio : log_add_prio (60 :: (d ++ 62 :: t) ++ 0 :: rest) ((60 :: (d ++ 62 :: t)).length + 1)
      = (decimal d, t ++ 0 :: rest, t.length + 1) := by
    unfold log_add_prio
    rw [hm]
    simp only [Prod.mk.injEq]
    refine ⟨?_, ?_, ?_⟩
    · show atoi (d ++ 62 :: t ++ 0 :: rest) = decimal d
      unfold atoi
      rw [List.append_assoc, List.cons_append, takeWhile_isdigit_run d _ hdig]
      show min (decimal d) (2 ^ 63 - 1) % 2 ^ 32 = decimal d
      rw [Nat.min_eq_left (by omega), Nat.mod_eq_of_lt (by omega)]
    · show List.drop (d.length + 2) (60 :: (d ++ 62 :: t ++ 0 :: rest)) = _
      rw [List.drop_succ_cons, List.append_assoc, List.drop_append, List.cons_append,
        List.drop_succ_cons]
      rfl
    · simp only [List.length_cons, List.length_append]
      omega
  have hparse : log_add_parse (60 :: (d ++ 62 :: t) ++ 0 :: rest)
      ((60 :: (d ++ 62 :: t)).length + 1) source = some (decimal d, t ++ 0 :: rest, t.length + 1) := by
    rw [log_add_parse_stages, hclean]
    simp only [Option.map_some', hprio, log_add_strip, SYSLOG_PADDING]
    have hget : (t ++ 0 :: rest).getD 15 0 = 32 → t.length + 1 > 16 → t.getD 15 0 = 32 := by
      intro h1 h2
      rw [List.getD_eq_getElem?_getD, List.getElem?_append_left (by omega)] at h1
      rw [List.getD_eq_getElem?_getD]
      exact h1
    rw [if_neg (fun h => hstrip ⟨h.1, h.2.1, hget h.2.2 h.2.1⟩)]
  refine ⟨hparse, ?_, ?_⟩
  · intro fuel ts s s' q hlog hdbg hres
    rw [log_add_retained fuel _ _ source ts s _ _ _ hlog hparse hdbg] at hres
    obtain ⟨m, id, hmem⟩ := log_add_insert_mem _ _ _ _ _ _ _ _ _ hres
    have hc : cstr (t ++ 0 :: rest) = t := cstr_append_zero t rest fun c hc => (ht c hc).1
    have h1 : rd32 s'.mem (q + OFF_SIZE) = t.length + 1 := by
      rw [hmem, rd32_write_record_size]
      omega
    refine ⟨?_, h1, ?_⟩
    · show rd32 s'.mem (q + OFF_PRIORITY) = _
      rw [hmem, rd32_write_record_priority]
      omega
    · show rdBytes s'.mem (q + HDR) (rd32 s'.mem (q + OFF_SIZE)) = _
      rw [h1, hmem, rdBytes_write_record_data _ _ _ _ _ _ _ _ (by rw [hc]), hc]
  · intro fuel m base C ts hfuel hbase hdbg hroom
    rw [log_add_retained fuel _ _ source ts (fresh m base C) _ _ _
      (by show base ≠ 0; omega) hparse hdbg]
    exact ⟨_, log_add_insert_linear fuel _ _ _ source ts (fresh m base C) hfuel
      (Nat.le_refl _) (by show base + HDR + PAD (t.length + 1) < base + C; omega)⟩

/-- Witness of C12: the line `<134>hello world` gives the priority 134 and the
text `hello world`; on an empty store of capacity 100 the record is stored at
the region start. -/
theorem priority_extraction_witness :
    log_add_parse [60, 49, 51, 52, 62, 104, 101, 108, 108, 111, 32, 119, 111, 114, 108, 100, 0]
        17 SOURCE_SYSLOG
      = some (134, [104, 101, 108, 108, 111, 32, 119, 111, 114, 108, 100, 0], 12) ∧
    ∃ s', log_add 1
        [60, 49, 51, 52, 62, 104, 101, 108, 108, 111, 32, 119, 111, 114, 108, 100, 0] 17
        SOURCE_SYSLOG (7, 9) (fresh zero_mem 1000 100) = some (s', 1000) ∧
      (record_at s'.mem 1000).priority = 134 ∧ (record_at s'.mem 1000).size = 12 ∧
      (record_at s'.mem 1000).data = [104, 101, 108, 108, 111, 32, 119, 111, 114, 108, 100, 0] := by
  obtain ⟨hp, hrec, hret⟩ :=
    priority_extraction [49, 51, 52] [104, 101, 108, 108, 111, 32, 119, 111, 114, 108, 100] []
      SOURCE_SYSLOG (by decide) (by decide) (by decide) (by decide)
      (by
        intro pre c h
        have h2 : c ∈ [104, 101, 108, 108, 111, 32, 119, 111, 114, 108, 100] := by
          rw [h]; simp
        have h3 : c = 100 := by
          have := congrArg List.getLast? h
          simp at this
          exact this.symm
        subst h3
        decide)
      (by decide)
  obtain ⟨s', hs'⟩ := hret 1 zero_mem 1000 100 (7, 9) (by decide) (by decide) (by decide)
    (by decide)
  exact ⟨hp, s', hs', hrec 1 (7, 9) (fresh zero_mem 1000 100) s' 1000 (by decide) (by decide) hs'⟩

/-- C17 (code defect): on a store of capacity 100 holding two records of
footprint 36 (`newest` at offset 72), `log_add` of a kernel line of footprint
72 does not return, whatever the fuel: the insert wraps, the loop of line 203
walks from the region start over the two records to the sentinel at offset 72,
which is not beyond `next` (offset 72), steps from there to offset 104, beyond
the region end, so `log_next` returns the region start, and starts over. -/
theorem wrap_eviction_loop_never_ends :
    long_call.footprint = 72 ∧ long_call.retained = true ∧
    ∃ s, boot_run 8 zero_mem 1000 100 two_calls = some s ∧
      ∀ fuel, log_add fuel long_call.buf long_call.size long_call.source long_call.ts s = none := by
  refine ⟨by decide, by decide, ?_⟩
  have h : (boot_run 8 zero_mem 1000 100 two_calls).map (fun s =>
      (s.log, s.log_end, s.newest, rd32 s.mem 1000, rd32 s.mem 1036))
      = some (1000, 1100, 1072, 4, 4) := by decide
  cases hb : boot_run 8 zero_mem 1000 100 two_calls with
  | none => rw [hb] at h; simp at h
  | some s =>
    rw [hb] at h
    simp only [Option.map_some', Option.some.injEq, Prod.mk.injEq] at h
    obtain ⟨hlog, hend, hnew, hr0, hr1⟩ := h
    refine ⟨s, rfl, ?_⟩
    intro fuel
    have hparse : log_add_parse long_call.buf long_call.size long_call.source
        = some (14, List.replicate 39 97 ++ [0], 40) := by decide
    rw [log_add_retained fuel _ _ _ _ s 14 _ 40 (by omega) hparse (by decide)]
    have hn : log_next s s.newest ((40 : Nat) : Int) = 1000 := by
      simp only [log_next_ofNat, hend, hnew, hlog, HDR, PAD]
      decide
    have hP : ∀ o, (o = 1000 ∨ o = 1036 ∨ o = 1072) →
        o ≤ 1072 ∧ (log_next { s with mem := wr32 s.mem (s.newest + OFF_SIZE) 0 } o
          (to_int (rd32 (wr32 s.mem (s.newest + OFF_SIZE) 0) (o + OFF_SIZE))) = 1000 ∨
          log_next { s with mem := wr32 s.mem (s.newest + OFF_SIZE) 0 } o
          (to_int (rd32 (wr32 s.mem (s.newest + OFF_SIZE) 0) (o + OFF_SIZE))) = 1036 ∨
          log_next { s with mem := wr32 s.mem (s.newest + OFF_SIZE) 0 } o
          (to_int (rd32 (wr32 s.mem (s.newest + OFF_SIZE) 0) (o + OFF_SIZE))) = 1072) := by
      intro o ho
      simp only [hnew, OFF_SIZE, Nat.add_zero]
      rcases ho with rfl | rfl | rfl
      · refine ⟨by omega, Or.inr (Or.inl ?_)⟩
        rw [rd32_wr32_other _ _ _ _ (by omega), hr0, log_next_field _ _ _ (by omega)]
        simp only [hend, hlog, HDR, PAD]
        decide
      · refine ⟨by omega, Or.inr (Or.inr ?_)⟩
        rw [rd32_wr32_other _ _ _ _ (by omega), hr1, log_next_field _ _ _ (by omega)]
        simp only [hend, hlog, HDR, PAD]
        decide
      · refine ⟨by omega, Or.inl ?_⟩
        rw [rd32_wr32_same, log_next_field _ _ _ (by omega)]
        simp only [hend, hlog, HDR, PAD]
        decide
    have hcyc := evict_wrap_cycle { s with mem := wr32 s.mem (s.newest + OFF_SIZE) 0 } 1072
      (fun o => o = 1000 ∨ o = 1036 ∨ o = 1072) hP fuel 1000 (Or.inl rfl)
    have hn2 : log_next { s with mem := wr32 s.mem (s.newest + OFF_SIZE) 0 } s.log
        ((40 : Nat) : Int) = 1072 := by
      simp only [log_next_ofNat, hend, hlog, HDR, PAD]
      decide
    rw [← hn2] at hcyc
    simp only [log_add_insert, hn]
    rw [if_neg (by omega)]
    simp only [Option.map_eq_none']
    rw [← hlog] at hcyc
    exact hcyc

/-- C20: in every state reached from the store as initialised with a capacity
`C` that is a multiple of 4, `newest` is inside the region with room for the
4-byte `size` field (the place of the sentinel store of line 201); a call of
`log_add` whose record has a footprint of at most `C` stores the header and
the text with its NUL at an address `q` with `[q, q + 32 + size)` inside
`[region start, region start + C)`, changes no byte outside that region, and
leaves `newest` inside the region with room for `size`. -/
theorem log_add_writes_inside_region (fuel : Nat) (m : Mem) (base C : Nat) (cs : List Call)
    (c : Call) (s s' : LogState) (q : Nat) (hC : 0 < C) (h4 : C % 4 = 0)
    (hrun : boot_run fuel m base C cs = some s)
    (hsize : c.size = (cstr c.buf).length + 1) (hfp : c.footprint ≤ C)
    (hres : log_add fuel c.buf c.size c.source c.ts s = some (s', q)) :
    base ≤ s.newest ∧ s.newest + 4 ≤ base + C ∧
    (∀ x, x < base ∨ base + C ≤ x → s'.mem x = s.mem x) ∧
    base ≤ s'.newest ∧ s'.newest + 4 ≤ base + C ∧
    (∀ p b sz, s.log ≠ 0 → log_add_parse c.buf c.size c.source = some (p, b, sz) →
      p &&& LOG_FACMASK ≠ LOG_LOCAL7 →
      base ≤ q ∧ q + HDR + (cstr b ++ [0]).length ≤ base + C ∧
      (s'.mem = write_record s.mem q sz s.current_id p c.source c.ts b ∨
        s'.mem = write_record (wr32 s.mem (s.newest + OFF_SIZE) 0) q sz s.current_id p
          c.source c.ts b)) := by
  have hpl := boot_run_placed fuel m base C cs s hC h4 hrun
  have hpl' := log_add_placed _ _ _ _ _ _ _ _ _ _ h4 hpl hres
  have a1 := hpl.newest_ge
  have a2 := hpl.newest_lt
  have a3 := hpl.aligned
  have b1 := hpl'.newest_ge
  have b2 := hpl'.newest_lt
  have b3 := hpl'.aligned
  refine ⟨a1, by omega, ?_, b1, by omega, ?_⟩
  · simp only [log_add] at hres
    split at hres
    · simp only [Option.some.injEq, Prod.mk.injEq] at hres
      intro x _; rw [← hres.1]
    · split at hres
      · simp at hres
      · rename_i p b sz hp
        split at hres
        · simp only [Option.some.injEq, Prod.mk.injEq] at hres
          intro x _; rw [← hres.1]
        · have hfp' : HDR + PAD sz ≤ C := by
            simpa only [Call.footprint, hp] using hfp
          exact log_add_insert_frame _ _ _ _ _ _ _ _ _ _ _ h4 hpl
            (log_add_parse_size _ _ _ _ _ _ hsize hp) hfp' hres
  · intro p b sz hlog hp hdbg
    rw [log_add_retained fuel _ _ _ _ s p b sz hlog hp hdbg] at hres
    have hfp' : HDR + PAD sz ≤ C := by
      simpa only [Call.footprint, hp] using hfp
    have hsz := log_add_parse_size _ _ _ _ _ _ hsize hp
    obtain ⟨c1, c2, c3⟩ := log_add_insert_inside _ _ _ _ _ _ _ _ _ _ _ hpl hfp' hres
    refine ⟨c1, ?_, c3⟩
    simp only [List.length_append, List.length_singleton]
    omega

/-- Witness of C20: the third of three kernel lines on a store of capacity 100,
which takes the wrap path. -/
theorem log_add_writes_inside_region_witness :
    ∃ s s' q, boot_run 8 zero_mem 1000 100 two_calls = some s ∧
      log_add 8 (klog_call [103, 104, 105]).buf 8 SOURCE_KLOG (7, 9) s = some (s', q) ∧
      (∀ x, x < 1000 ∨ 1000 + 100 ≤ x → s'.mem x = s.mem x) ∧
      1000 ≤ s'.newest ∧ s'.newest + 4 ≤ 1000 + 100 := by
  have h : ((boot_run 8 zero_mem 1000 100 two_calls).bind fun s =>
      log_add 8 (klog_call [103, 104, 105]).buf 8 SOURCE_KLOG (7, 9) s).isSome = true := by
    decide
  cases hb : boot_run 8 zero_mem 1000 100 two_calls with
  | none => rw [hb] at h; simp at h
  | some s =>
    rw [hb] at h
    simp only [Option.some_bind] at h
    cases hl : log_add 8 (klog_call [103, 104, 105]).buf 8 SOURCE_KLOG (7, 9) s with
    | none => rw [hl] at h; simp at h
    | some r =>
      obtain ⟨_, _, h3, h4, h5, _⟩ := log_add_writes_inside_region 8 zero_mem 1000 100 two_calls
        (klog_call [103, 104, 105]) s r.1 r.2 (by decide) (by decide) hb (by decide) (by decide) hl
      exact ⟨s, r.1, r.2, rfl, hl, h3, h4, h5⟩

end Syslog
